import Mathlib

/-!
Verification development for the PhotoMosaic generator
(`src/js/modules/image-processor.js`, `src/js/main.js`).

The JavaScript code is shallowly embedded: pure functions become Lean
functions over `Nat`/`Int`/`Rat`, pixel buffers (`Uint8ClampedArray`,
`ImageData.data`) become flat `List Nat` of RGBA samples, JS `Map`s become
insertion-ordered association lists, a JS function that can throw becomes a
Lean function into `Option`/`Except` (`none`/`error` marks the thrown
exception), and `Math.random()`-driven choices are parametrised by an
oracle so that theorems quantify over every possible random behaviour.
JavaScript numbers used here are small integers and exact dyadic rationals,
for which IEEE double arithmetic is exact, so `Nat`/`Rat` arithmetic is a
faithful model; `Uint16Array` stores are modelled with an explicit
`% 65536`.
-/

/-! ### Small JavaScript arithmetic helpers -/

/-- `Math.ceil(a / b)` for natural `a`, positive natural `b`
(the sources only divide by positive counts; IEEE division followed by
`Math.ceil` is exact for the magnitudes involved). -/
def jsCeil (a b : ℕ) : ℕ := (a + b - 1) / b

/-- `Math.round(num / den)` for natural inputs: JavaScript rounds half
toward `+∞`, i.e. `⌊num/den + 1/2⌋`. -/
def jsRound (num den : ℕ) : ℕ := (2 * num + den) / (2 * den)

theorem jsCeil_eq_ceil (a b : ℕ) (hb : 0 < b) : (jsCeil a b : ℤ) = ⌈(a : ℚ) / b⌉ := by
  unfold jsCeil
  symm
  rw [Int.ceil_eq_iff]
  have hq := Nat.div_add_mod (a + b - 1) b
  have hr := Nat.mod_lt (a + b - 1) hb
  have hb' : (0:ℚ) < b := by exact_mod_cast hb
  have hsub : ((a + b - 1 : ℕ) : ℚ) = (a:ℚ) + b - 1 := by
    have h1 : (1:ℕ) ≤ a + b := by omega
    rw [Nat.cast_sub h1]
    push_cast
    ring
  have hcast : (b:ℚ) * ((a + b - 1) / b : ℕ) + ((a + b - 1) % b : ℕ) = (a:ℚ) + b - 1 := by
    rw [← hsub, ← Nat.cast_mul, ← Nat.cast_add]
    exact_mod_cast hq
  have hrq : (((a + b - 1) % b : ℕ) : ℚ) < (b:ℚ) := by exact_mod_cast hr
  have hrq1 : (((a + b - 1) % b : ℕ) : ℚ) ≤ (b:ℚ) - 1 := by
    have h1 : (a + b - 1) % b + 1 ≤ b := by omega
    have h2 : (((a + b - 1) % b + 1 : ℕ) : ℚ) ≤ (b:ℚ) := by exact_mod_cast h1
    push_cast at h2
    linarith
  simp only [Int.cast_natCast]
  constructor
  · rw [lt_div_iff hb']
    nlinarith
  · rw [div_le_iff hb', mul_comm]
    linarith

/-! ### PixelCodec: RGB565 compression
(`MosaicWorker.compressImageData` / `decompressImageData`,
`image-processor.js:1045-1077`; identical code in
`ImageDataCompressor.compressRGB565` / `decompressRGB565`, lines 1335-1367).

A pixel buffer is the flat `data` array of an `ImageData`: RGBA samples,
four naturals `< 256` per pixel.  The JS loop reads four samples per step
and writes one 16-bit word per pixel into a `Uint16Array` (hence the
`% 65536`). -/

/-- `compressImageData(imageData)`: per pixel,
`(Math.floor(r/8) << 11) | (Math.floor(g/4) << 5) | Math.floor(b/8)`,
stored in a `Uint16Array`. -/
def compressImageData : List ℕ → List ℕ
  | r :: g :: b :: _a :: rest =>
      ((((r / 8) <<< 11) ||| ((g / 4) <<< 5) ||| (b / 8)) % 65536) :: compressImageData rest
  | _ => []

/-- `decompressImageData(compressed, size)`: per 16-bit word `p`,
`r = (p >> 11) * 8`, `g = ((p >> 5) & 0x3F) * 4`, `b = (p & 0x1F) * 8`,
alpha `255`. -/
def decompressImageData : List ℕ → List ℕ
  | [] => []
  | p :: rest =>
      (p >>> 11) * 8 :: ((p >>> 5) &&& 0x3F) * 4 :: (p &&& 0x1F) * 8 :: 255 ::
        decompressImageData rest

/-- Well-formed RGBA buffer: a multiple of four samples, each `< 256`
(guaranteed for `ImageData.data`, a `Uint8ClampedArray`). -/
def validRGBA : List ℕ → Bool
  | [] => true
  | r :: g :: b :: a :: rest => r < 256 && g < 256 && b < 256 && a < 256 && validRGBA rest
  | _ => false

/-! Bit-extraction lemmas for the 5-6-5 packing. -/

theorem lor_lt_two_pow {x y n : ℕ} (hx : x < 2 ^ n) (hy : y < 2 ^ n) : x ||| y < 2 ^ n :=
  Nat.bitwise_lt_two_pow hx hy

theorem rgb565_pack_lt (r' g' b' : ℕ) (hr : r' < 32) (hg : g' < 64) (hb : b' < 32) :
    ((r' <<< 11) ||| (g' <<< 5) ||| b') < 65536 := by
  have h1 : r' <<< 11 < 2 ^ 16 := by
    calc r' <<< 11 = r' * 2 ^ 11 := Nat.shiftLeft_eq r' 11
    _ < 32 * 2 ^ 11 := by
        have hp : (0:ℕ) < 2 ^ 11 := by positivity
        exact (Nat.mul_lt_mul_right hp).mpr hr
    _ = 2 ^ 16 := by norm_num
  have h2 : g' <<< 5 < 2 ^ 16 := by
    have : g' <<< 5 < 64 * 2 ^ 5 := by
      rw [Nat.shiftLeft_eq]
      have hp : (0:ℕ) < 2 ^ 5 := by positivity
      exact (Nat.mul_lt_mul_right hp).mpr hg
    omega
  have h3 : b' < 2 ^ 16 := by omega
  have h12 : (r' <<< 11) ||| (g' <<< 5) < 2 ^ 16 := lor_lt_two_pow h1 h2
  have := lor_lt_two_pow h12 h3
  omega

theorem rgb565_extract_r (r' g' b' : ℕ) (hr : r' < 32) (hg : g' < 64) (hb : b' < 32) :
    ((((r' <<< 11) ||| (g' <<< 5) ||| b') % 65536) >>> 11) = r' := by
  have hlt := rgb565_pack_lt r' g' b' hr hg hb
  rw [Nat.mod_eq_of_lt hlt]
  apply Nat.eq_of_testBit_eq
  intro i
  simp only [Nat.testBit_shiftRight, Nat.testBit_lor, Nat.testBit_shiftLeft]
  have hb' : b'.testBit (11 + i) = false :=
    Nat.testBit_eq_false_of_lt (lt_of_lt_of_le hb (by
      calc (32:ℕ) = 2 ^ 5 := by norm_num
      _ ≤ 2 ^ (11 + i) := Nat.pow_le_pow_right (by norm_num) (by omega)))
  have hg' : g'.testBit (11 + i - 5) = false :=
    Nat.testBit_eq_false_of_lt (lt_of_lt_of_le hg (by
      calc (64:ℕ) = 2 ^ 6 := by norm_num
      _ ≤ 2 ^ (11 + i - 5) := Nat.pow_le_pow_right (by norm_num) (by omega)))
  have h11 : 11 + i ≥ 11 := by omega
  have h5 : 11 + i ≥ 5 := by omega
  have : 11 + i - 11 = i := by omega
  simp [hb', hg', h11, h5, this]

theorem rgb565_extract_g (r' g' b' : ℕ) (hr : r' < 32) (hg : g' < 64) (hb : b' < 32) :
    (((((r' <<< 11) ||| (g' <<< 5) ||| b') % 65536) >>> 5) &&& 0x3F) = g' := by
  have hlt := rgb565_pack_lt r' g' b' hr hg hb
  rw [Nat.mod_eq_of_lt hlt]
  apply Nat.eq_of_testBit_eq
  intro i
  simp only [Nat.testBit_and, Nat.testBit_shiftRight, Nat.testBit_lor, Nat.testBit_shiftLeft]
  by_cases hi : i < 6
  · have hmask : (0x3F : ℕ).testBit i = true := by
      interval_cases i <;> decide
    have hb' : b'.testBit (5 + i) = false :=
      Nat.testBit_eq_false_of_lt (lt_of_lt_of_le hb (by
        calc (32:ℕ) = 2 ^ 5 := by norm_num
        _ ≤ 2 ^ (5 + i) := Nat.pow_le_pow_right (by norm_num) (by omega)))
    by_cases hir : 5 + i ≥ 11
    · -- beyond the g field: r bit may be set only when the masked bit is dead
      omega
    · have : ¬ (5 + i ≥ 11) := hir
      have h5 : 5 + i ≥ 5 := by omega
      have : 5 + i - 5 = i := by omega
      simp [hmask, hb', hir, h5, this]
  · have hmask : (0x3F : ℕ).testBit i = false := by
      have : (0x3F : ℕ) < 2 ^ i := by
        calc (0x3F : ℕ) < 2 ^ 6 := by norm_num
        _ ≤ 2 ^ i := Nat.pow_le_pow_right (by norm_num) (by omega)
      exact Nat.testBit_eq_false_of_lt this
    have hgf : g'.testBit i = false :=
      Nat.testBit_eq_false_of_lt (lt_of_lt_of_le hg (by
        calc (64:ℕ) = 2 ^ 6 := by norm_num
        _ ≤ 2 ^ i := Nat.pow_le_pow_right (by norm_num) (by omega)))
    simp [hmask, hgf]

theorem rgb565_extract_b (r' g' b' : ℕ) (hr : r' < 32) (hg : g' < 64) (hb : b' < 32) :
    ((((r' <<< 11) ||| (g' <<< 5) ||| b') % 65536) &&& 0x1F) = b' := by
  have hlt := rgb565_pack_lt r' g' b' hr hg hb
  rw [Nat.mod_eq_of_lt hlt]
  apply Nat.eq_of_testBit_eq
  intro i
  simp only [Nat.testBit_and, Nat.testBit_lor, Nat.testBit_shiftLeft]
  by_cases hi : i < 5
  · have hmask : (0x1F : ℕ).testBit i = true := by
      interval_cases i <;> decide
    have h11 : ¬ (i ≥ 11) := by omega
    have h5 : ¬ (i ≥ 5) := by omega
    simp [hmask, h11, h5]
  · have hmask : (0x1F : ℕ).testBit i = false := by
      have : (0x1F : ℕ) < 2 ^ i := by
        calc (0x1F : ℕ) < 2 ^ 5 := by norm_num
        _ ≤ 2 ^ i := Nat.pow_le_pow_right (by norm_num) (by omega)
      exact Nat.testBit_eq_false_of_lt this
    have hbf : b'.testBit i = false :=
      Nat.testBit_eq_false_of_lt (lt_of_lt_of_le hb (by
        calc (32:ℕ) = 2 ^ 5 := by norm_num
        _ ≤ 2 ^ i := Nat.pow_le_pow_right (by norm_num) (by omega)))
    simp [hmask, hbf]

/-- The RGBA quadruples of a flat pixel buffer (the view the JS loops take,
reading `data[i] … data[i+3]` in steps of four). -/
def pixelsOf : List ℕ → List (ℕ × ℕ × ℕ × ℕ)
  | r :: g :: b :: a :: rest => (r, g, b, a) :: pixelsOf rest
  | _ => []

theorem roundTrip_cons (r g b a : ℕ) (rest : List ℕ)
    (hr : r < 256) (hg : g < 256) (hb : b < 256) :
    decompressImageData (compressImageData (r :: g :: b :: a :: rest)) =
      (r / 8) * 8 :: (g / 4) * 4 :: (b / 8) * 8 :: 255 ::
        decompressImageData (compressImageData rest) := by
  have hr' : r / 8 < 32 := by omega
  have hg' : g / 4 < 64 := by omega
  have hb' : b / 8 < 32 := by omega
  simp only [compressImageData, decompressImageData]
  rw [rgb565_extract_r _ _ _ hr' hg' hb', rgb565_extract_g _ _ _ hr' hg' hb',
    rgb565_extract_b _ _ _ hr' hg' hb']

theorem roundTrip_aux :
    ∀ data : List ℕ, validRGBA data = true →
      (decompressImageData (compressImageData data)).length = data.length ∧
      ∀ pq ∈ (pixelsOf data).zip
          (pixelsOf (decompressImageData (compressImageData data))),
        pq.2.1 ≤ pq.1.1 ∧ pq.1.1 - pq.2.1 ≤ 7 ∧
        pq.2.2.1 ≤ pq.1.2.1 ∧ pq.1.2.1 - pq.2.2.1 ≤ 3 ∧
        pq.2.2.2.1 ≤ pq.1.2.2.1 ∧ pq.1.2.2.1 - pq.2.2.2.1 ≤ 7 ∧
        pq.2.2.2.2 = 255
  | [], _ => by simp [compressImageData, decompressImageData, pixelsOf]
  | [x], h => by simp [validRGBA] at h
  | [x, y], h => by simp [validRGBA] at h
  | [x, y, z], h => by simp [validRGBA] at h
  | r :: g :: b :: a :: rest, h => by
      simp only [validRGBA, Bool.and_eq_true, decide_eq_true_eq] at h
      obtain ⟨⟨⟨⟨hr, hg⟩, hb⟩, _⟩, hrest⟩ := h
      obtain ⟨ihlen, ihpx⟩ := roundTrip_aux rest hrest
      rw [roundTrip_cons r g b a rest hr hg hb]
      constructor
      · simp [ihlen]
      · intro pq hpq
        rw [show pixelsOf (r :: g :: b :: a :: rest) = (r, g, b, a) :: pixelsOf rest
              from rfl,
            show pixelsOf ((r / 8) * 8 :: (g / 4) * 4 :: (b / 8) * 8 :: 255 ::
                decompressImageData (compressImageData rest)) =
              ((r / 8) * 8, (g / 4) * 4, (b / 8) * 8, 255) ::
                pixelsOf (decompressImageData (compressImageData rest)) from rfl,
            List.zip_cons_cons, List.mem_cons] at hpq
        rcases hpq with hpq | hpq
        · subst hpq
          dsimp only
          refine ⟨Nat.div_mul_le_self r 8, by omega, Nat.div_mul_le_self g 4, by omega,
            Nat.div_mul_le_self b 8, by omega, rfl⟩
        · exact ihpx pq hpq

theorem pixelsOf_decompress_length :
    ∀ cs : List ℕ, (pixelsOf (decompressImageData cs)).length = cs.length
  | [] => by simp [decompressImageData, pixelsOf]
  | p :: rest => by
      simp [decompressImageData, pixelsOf, pixelsOf_decompress_length rest]

theorem compress_length :
    ∀ data : List ℕ, validRGBA data = true →
      (compressImageData data).length = data.length / 4
  | [] , _ => by simp [compressImageData]
  | [x], h => by simp [validRGBA] at h
  | [x, y], h => by simp [validRGBA] at h
  | [x, y, z], h => by simp [validRGBA] at h
  | r :: g :: b :: a :: rest, h => by
      simp only [validRGBA, Bool.and_eq_true, decide_eq_true_eq] at h
      simp only [compressImageData, List.length_cons]
      rw [compress_length rest h.2]
      omega

theorem pixelsOf_length :
    ∀ data : List ℕ, validRGBA data = true →
      (pixelsOf data).length = data.length / 4
  | [] , _ => by simp [pixelsOf]
  | [x], h => by simp [validRGBA] at h
  | [x, y], h => by simp [validRGBA] at h
  | [x, y, z], h => by simp [validRGBA] at h
  | r :: g :: b :: a :: rest, h => by
      simp only [validRGBA, Bool.and_eq_true, decide_eq_true_eq] at h
      simp only [pixelsOf, List.length_cons]
      rw [pixelsOf_length rest h.2]
      omega

/-- C3: RGB565 round-trip.  Decompressing the compression of a well-formed
RGBA buffer recovers every pixel up to one quantization step per channel
(≤ 7 on the 5-bit R and B channels, ≤ 3 on the 6-bit G channel), forces
alpha to 255 everywhere, and compression is deterministic (equal buffers
compress to equal byte sequences). -/
theorem rgb565_roundtrip_close (data : List ℕ) (h : validRGBA data = true) :
    (decompressImageData (compressImageData data)).length = data.length ∧
    (pixelsOf (decompressImageData (compressImageData data))).length =
      (pixelsOf data).length ∧
    (∀ pq ∈ (pixelsOf data).zip
        (pixelsOf (decompressImageData (compressImageData data))),
      pq.2.1 ≤ pq.1.1 ∧ pq.1.1 - pq.2.1 ≤ 7 ∧
      pq.2.2.1 ≤ pq.1.2.1 ∧ pq.1.2.1 - pq.2.2.1 ≤ 3 ∧
      pq.2.2.2.1 ≤ pq.1.2.2.1 ∧ pq.1.2.2.1 - pq.2.2.2.1 ≤ 7 ∧
      pq.2.2.2.2 = 255) ∧
    (∀ data2 : List ℕ, data = data2 → compressImageData data = compressImageData data2) := by
  obtain ⟨hlen, hpx⟩ := roundTrip_aux data h
  refine ⟨hlen, ?_, hpx, fun data2 hdeq => hdeq ▸ rfl⟩
  rw [pixelsOf_decompress_length, compress_length data h, pixelsOf_length data h]

/-- Closed witness for `rgb565_roundtrip_close` at a concrete two-pixel buffer. -/
theorem rgb565_roundtrip_close_witness :
    validRGBA [200, 100, 50, 255, 0, 255, 7, 0] = true ∧
    decompressImageData (compressImageData [200, 100, 50, 255, 0, 255, 7, 0]) =
      [200, 100, 48, 255, 0, 252, 0, 255] ∧
    (∀ pq ∈ (pixelsOf [200, 100, 50, 255, 0, 255, 7, 0]).zip
        (pixelsOf (decompressImageData (compressImageData [200, 100, 50, 255, 0, 255, 7, 0]))),
      pq.2.1 ≤ pq.1.1 ∧ pq.1.1 - pq.2.1 ≤ 7 ∧
      pq.2.2.1 ≤ pq.1.2.1 ∧ pq.1.2.1 - pq.2.2.1 ≤ 3 ∧
      pq.2.2.2.1 ≤ pq.1.2.2.1 ∧ pq.1.2.2.1 - pq.2.2.2.1 ≤ 7 ∧
      pq.2.2.2.2 = 255) :=
  ⟨by decide, by decide,
    (rgb565_roundtrip_close [200, 100, 50, 255, 0, 255, 7, 0] (by decide)).2.2.1⟩

/-! ### ColorMath (`MosaicWorker.rgbToLab` line 979, `calculateColorDistance`
lines 997-1009, `ColorUtils.deltaEFast` lines 1516-1527).

These work on IEEE doubles; at the concrete inputs used below every
intermediate value is an exact small decimal, so `ℝ` models them exactly. -/

structure RGBColor where
  r : ℕ
  g : ℕ
  b : ℕ
deriving DecidableEq

structure LabColor where
  l : ℝ
  a : ℝ
  b : ℝ

/-- `MosaicWorker.rgbToLab(rgb)`: the fast linear approximation used by the
worker (`l = 0.299r + 0.587g + 0.114b`, `a = 0.5(r-g)`, `b = 0.5(g-b)`,
each scaled by 100 after normalising channels to `[0,1]`). -/
noncomputable def rgbToLab (rgb : RGBColor) : LabColor :=
  let r := (rgb.r : ℝ) / 255
  let g := (rgb.g : ℝ) / 255
  let b := (rgb.b : ℝ) / 255
  let l := 0.299 * r + 0.587 * g + 0.114 * b
  let a := 0.5 * (r - g)
  let bVal := 0.5 * (g - b)
  { l := l * 100, a := a * 100, b := bVal * 100 }

/-- `MosaicWorker.calculateColorDistance(lab1, lab2, method)`:
`"lab"` gives the Euclidean distance of the three Lab components; any
other method (the `"rgb"` fast path) returns `Math.abs(lab1.l - lab2.l)`. -/
noncomputable def calculateColorDistance (lab1 lab2 : LabColor) (method : String) : ℝ :=
  if method = "lab" then
    let deltaL := lab1.l - lab2.l
    let deltaA := lab1.a - lab2.a
    let deltaB := lab1.b - lab2.b
    Real.sqrt (deltaL * deltaL + deltaA * deltaA + deltaB * deltaB)
  else
    |lab1.l - lab2.l|

/-- `ColorUtils.deltaEFast(rgb1, rgb2)`: the weighted Euclidean RGB distance
with weights 2:4:3 — defined in `memory-utils` but never called by
`calculateColorDistance`. -/
noncomputable def ColorUtils.deltaEFast (rgb1 rgb2 : RGBColor) : ℝ :=
  let deltaR := (rgb1.r : ℝ) - rgb2.r
  let deltaG := (rgb1.g : ℝ) - rgb2.g
  let deltaB := (rgb1.b : ℝ) - rgb2.b
  Real.sqrt (2 * deltaR * deltaR + 4 * deltaG * deltaG + 3 * deltaB * deltaB)

/-- The three Lab components as a point of Euclidean 3-space. -/
noncomputable def labVec (c : LabColor) : EuclideanSpace ℝ (Fin 3) := ![c.l, c.a, c.b]

/-- C4 counterexample: for the colors white and black, the `"rgb"` mode of the
distance function returns `100` (the luminance difference), not the weighted
2:4:3 Euclidean RGB distance `765` computed by `deltaEFast`. -/
theorem calculateColorDistance_rgb_not_weighted :
    calculateColorDistance (rgbToLab ⟨255, 255, 255⟩) (rgbToLab ⟨0, 0, 0⟩) "rgb" ≠
      ColorUtils.deltaEFast ⟨255, 255, 255⟩ ⟨0, 0, 0⟩ := by
  unfold calculateColorDistance rgbToLab ColorUtils.deltaEFast
  rw [if_neg (by decide : ¬ ("rgb" = "lab"))]
  have h1 : |((0.299 * ((255:ℝ)/255) + 0.587 * ((255:ℝ)/255) + 0.114 * ((255:ℝ)/255)) * 100) -
      ((0.299 * ((0:ℝ)/255) + 0.587 * ((0:ℝ)/255) + 0.114 * ((0:ℝ)/255)) * 100)| = 100 := by
    norm_num
  have h2 : Real.sqrt (2 * (((255:ℝ) - 0)) * ((255:ℝ) - 0) +
      4 * (((255:ℝ) - 0)) * ((255:ℝ) - 0) + 3 * (((255:ℝ) - 0)) * ((255:ℝ) - 0)) = 765 := by
    rw [show (2 * (((255:ℝ) - 0)) * ((255:ℝ) - 0) + 4 * (((255:ℝ) - 0)) * ((255:ℝ) - 0) +
        3 * (((255:ℝ) - 0)) * ((255:ℝ) - 0)) = (765:ℝ) ^ 2 by norm_num]
    exact Real.sqrt_sq (by norm_num)
  simp only [Nat.cast_ofNat, Nat.cast_zero] at *
  rw [h1]
  rw [h2]
  norm_num

/-- C4 amended: the `"lab"` mode of `calculateColorDistance` is the full
Euclidean distance of the three Lab components (the distance in `ℝ³`), while
the `"rgb"` mode is only the absolute difference of the `l` (luminance)
components — not the weighted 2:4:3 RGB distance of `deltaEFast`. -/
theorem calculateColorDistance_modes (lab1 lab2 : LabColor) :
    calculateColorDistance lab1 lab2 "lab" = dist (labVec lab1) (labVec lab2) ∧
    calculateColorDistance lab1 lab2 "rgb" = dist lab1.l lab2.l := by
  constructor
  · unfold calculateColorDistance
    rw [if_pos rfl, EuclideanSpace.dist_eq]
    rw [Fin.sum_univ_three]
    simp only [labVec, Matrix.cons_val_zero, Matrix.cons_val_one, Matrix.head_cons,
      Matrix.cons_val_two, Matrix.tail_cons, Real.dist_eq, sq_abs]
    ring_nf
  · unfold calculateColorDistance
    rw [if_neg (by decide : ¬ ("rgb" = "lab")), Real.dist_eq]

/-! ### MetadataExtractor: per-tile average color
(`MosaicWorker.calculateAverageColor`, `image-processor.js:937-953`, called
from `extractTileMetadata` line 467).  The JS loop sums the R, G, B samples
of every pixel — the alpha sample is never read — and divides by the pixel
count `data.length / 4`, rounding with `Math.round`. -/

/-- The running `(r, g, b)` sums of `calculateAverageColor`'s loop. -/
def sumRGB : List ℕ → ℕ × ℕ × ℕ
  | r :: g :: b :: _a :: rest =>
      let s := sumRGB rest
      (r + s.1, g + s.2.1, b + s.2.2)
  | _ => (0, 0, 0)

/-- `MosaicWorker.calculateAverageColor(imageData)`. -/
def calculateAverageColor (data : List ℕ) : RGBColor :=
  let pixelCount := data.length / 4
  let s := sumRGB data
  ⟨jsRound s.1 pixelCount, jsRound s.2.1 pixelCount, jsRound s.2.2 pixelCount⟩

/-- Modelled from the spec's words (§4.4 step 3: "average color
(alpha-weighted pixel mean, skipping fully-transparent pixels)"), for
comparison against the implementation: channels weighted by alpha, pixels
with `alpha = 0` excluded. -/
def specAlphaWeightedAverageColor (data : List ℕ) : RGBColor :=
  let px := (pixelsOf data).filter (fun p => p.2.2.2 ≠ 0)
  let wsum := (px.map (fun p => p.2.2.2)).sum
  ⟨jsRound (px.map (fun p => p.1 * p.2.2.2)).sum wsum,
   jsRound (px.map (fun p => p.2.1 * p.2.2.2)).sum wsum,
   jsRound (px.map (fun p => p.2.2.1 * p.2.2.2)).sum wsum⟩

/-- C7 counterexample: on a buffer holding one solid red pixel and one
fully-transparent black pixel, the implementation averages over both pixels
(red channel `round(255/2) = 128`), whereas the spec's alpha-weighted,
transparency-skipping mean gives `255`. -/
theorem calculateAverageColor_not_alpha_weighted :
    calculateAverageColor [255, 0, 0, 255, 0, 0, 0, 0] = ⟨128, 0, 0⟩ ∧
    specAlphaWeightedAverageColor [255, 0, 0, 255, 0, 0, 0, 0] = ⟨255, 0, 0⟩ ∧
    calculateAverageColor [255, 0, 0, 255, 0, 0, 0, 0] ≠
      specAlphaWeightedAverageColor [255, 0, 0, 255, 0, 0, 0, 0] := by
  refine ⟨by decide, by decide, by decide⟩

theorem sumRGB_eq_maps :
    ∀ data : List ℕ, validRGBA data = true →
      sumRGB data = (((pixelsOf data).map (·.1)).sum,
        ((pixelsOf data).map (·.2.1)).sum, ((pixelsOf data).map (·.2.2.1)).sum)
  | [] , _ => by simp [sumRGB, pixelsOf]
  | [x], h => by simp [validRGBA] at h
  | [x, y], h => by simp [validRGBA] at h
  | [x, y, z], h => by simp [validRGBA] at h
  | r :: g :: b :: a :: rest, h => by
      simp only [validRGBA, Bool.and_eq_true, decide_eq_true_eq] at h
      simp only [sumRGB, pixelsOf, List.map_cons, List.sum_cons]
      rw [sumRGB_eq_maps rest h.2]

/-- C7 amended: during metadata extraction the per-tile average color is the
plain unweighted mean of the R, G, B samples over all pixels — alpha is
never read, and fully-transparent pixels are included — rounded with
`Math.round` (half toward `+∞`). -/
theorem calculateAverageColor_plain_mean (data : List ℕ) (h : validRGBA data = true) :
    calculateAverageColor data =
      ⟨jsRound ((pixelsOf data).map (·.1)).sum (pixelsOf data).length,
       jsRound ((pixelsOf data).map (·.2.1)).sum (pixelsOf data).length,
       jsRound ((pixelsOf data).map (·.2.2.1)).sum (pixelsOf data).length⟩ := by
  unfold calculateAverageColor
  rw [sumRGB_eq_maps data h, pixelsOf_length data h]

/-- Closed witness for `calculateAverageColor_plain_mean` at a concrete
buffer. -/
theorem calculateAverageColor_plain_mean_witness :
    validRGBA [10, 20, 30, 40, 11, 21, 31, 0] = true ∧
    calculateAverageColor [10, 20, 30, 40, 11, 21, 31, 0] =
      ⟨jsRound ((pixelsOf [10, 20, 30, 40, 11, 21, 31, 0]).map (·.1)).sum
         (pixelsOf [10, 20, 30, 40, 11, 21, 31, 0]).length,
       jsRound ((pixelsOf [10, 20, 30, 40, 11, 21, 31, 0]).map (·.2.1)).sum
         (pixelsOf [10, 20, 30, 40, 11, 21, 31, 0]).length,
       jsRound ((pixelsOf [10, 20, 30, 40, 11, 21, 31, 0]).map (·.2.2.1)).sum
         (pixelsOf [10, 20, 30, 40, 11, 21, 31, 0]).length⟩ :=
  ⟨by decide, calculateAverageColor_plain_mean [10, 20, 30, 40, 11, 21, 31, 0] (by decide)⟩

/-! ### AssignmentEngine
(`MosaicWorker.generateMosaicGrid` lines 545-660, `getNeighborTiles` 663-688,
`selectBestTileWithNeighborConstraint` 713-774, `selectBestTile` 777-836).

Tiles carry their filename (the tile id) and the Lab average color; the
color distance is abstracted by a parameter `dist` (the source instantiates
it with `calculateColorDistance cell.lab tile.averageColorLab
settings.colorMatching`; every theorem below holds for all `dist`, hence for
both modes).  JS `Map`s become insertion-ordered association lists with
`mapGet`/`mapSet`; `Array.prototype.sort` with the ascending distance
comparator is modelled by `List.insertionSort` (a sorted permutation, which
is all the source relies on); `Math.floor(Math.random() * len)`, uniform on
`[0, len)`, is modelled by `rand % len` for an arbitrary oracle `rand`. -/

structure Tile (γ : Type) where
  filename : String
  averageColorLab : γ
deriving DecidableEq

structure Cell (γ : Type) where
  x : ℕ
  y : ℕ
  lab : γ
deriving DecidableEq

structure Candidate (γ : Type) where
  tile : Tile γ
  distance : ℚ
  usage : ℕ
deriving DecidableEq

/-- `Map.prototype.get` on an insertion-ordered association list. -/
def mapGet {κ ν : Type} [DecidableEq κ] (m : List (κ × ν)) (k : κ) : Option ν :=
  (m.find? (fun p => decide (p.1 = k))).map (·.2)

/-- `Map.prototype.set`: replace in place if the key exists, else append. -/
def mapSet {κ ν : Type} [DecidableEq κ] (m : List (κ × ν)) (k : κ) (v : ν) : List (κ × ν) :=
  if m.any (fun p => decide (p.1 = k)) then
    m.map (fun p => if p.1 = k then (k, v) else p)
  else
    m ++ [(k, v)]

/-- `usageCount.get(tile.filename) || 0`. -/
def usageCountOf (usageCount : List (String × ℕ)) (f : String) : ℕ :=
  (mapGet usageCount f).getD 0

/-- `Math.min(...candidates.map(c => c.usage))`: a left fold of `min` seeded
with the first usage.  The `0` for the empty list stands for the empty
spread (`Infinity` in JS); both call sites then filter an empty list, so the
value is never observed. -/
def minimumUsage {γ : Type} : List (Candidate γ) → ℕ
  | [] => 0
  | c :: rest => rest.foldl (fun m c' => min m c'.usage) c.usage

/-- The usage ceiling computed identically at `selectBestTile` (781-783) and
`selectBestTileWithNeighborConstraint` (717-719):
`baseMaxUsage = Math.max(1, Math.ceil(totalCells / tileCount))`,
`maxUsage = baseMaxUsage + Math.ceil(tileCount / 20)`.
(`jsCeil` models `Math.ceil` of the quotient for positive divisors; the
`tileCount = 0` case throws later in the selection before `maxUsage` is ever
compared.) -/
def maxUsageOf (totalCells tileCount : ℕ) : ℕ :=
  max 1 (jsCeil totalCells tileCount) + jsCeil tileCount 20

/-! The candidate-selection tail shared verbatim by `selectBestTile`
(792-823) and `selectBestTileWithNeighborConstraint` (740-766), identical up
to the top-fraction constant (30% vs 40%, passed as `ratioNum`/10).  The
successive local arrays of the JS are named definitions here. -/

/-- `limitedCandidates = allCandidates.filter(c => c.usage < maxUsage)`. -/
def limitedCandidatesOf {γ : Type} (allCandidates : List (Candidate γ))
    (maxUsage : ℕ) : List (Candidate γ) :=
  allCandidates.filter (fun c => decide (c.usage < maxUsage))

/-- `candidates`: the under-ceiling candidates (top 10 by distance), or —
when every candidate reached the ceiling — those of globally minimum usage
(top 10 by distance). -/
def candidatesOf {γ : Type} (allCandidates : List (Candidate γ))
    (maxUsage : ℕ) : List (Candidate γ) :=
  if (limitedCandidatesOf allCandidates maxUsage).length > 0 then
    (limitedCandidatesOf allCandidates maxUsage).take 10
  else
    (allCandidates.filter
      (fun c => decide (c.usage = minimumUsage allCandidates))).take 10

/-- `bestUsageCandidates`: the candidates sharing the minimum usage. -/
def bestUsageCandidatesOf {γ : Type} (allCandidates : List (Candidate γ))
    (maxUsage : ℕ) : List (Candidate γ) :=
  (candidatesOf allCandidates maxUsage).filter
    (fun c => decide (c.usage = minimumUsage (candidatesOf allCandidates maxUsage)))

/-- The final pick: the unique least-used candidate, or a random one among
the top `ratioNum`/10 fraction by distance.  `none` models the `TypeError`
the JS throws when the list is empty (`bestCandidate` is `undefined`). -/
def pickBestCandidate {γ : Type} (allCandidates : List (Candidate γ))
    (maxUsage : ℕ) (ratioNum : ℕ) (rand : ℕ) : Option (Candidate γ) :=
  let bestUsageCandidates := bestUsageCandidatesOf allCandidates maxUsage
  if bestUsageCandidates.length = 1 then
    bestUsageCandidates.head?
  else
    let sortedByDistance := bestUsageCandidates.insertionSort
      (fun a b => a.distance ≤ b.distance)
    let topCandidatesCount := max 1 (jsCeil (sortedByDistance.length * ratioNum) 10)
    let topCandidates := sortedByDistance.take topCandidatesCount
    topCandidates[rand % topCandidates.length]?

/-- `MosaicWorker.selectBestTile(cell, tileMetadata, usageCount, settings)`
(777-836): the unconstrained selection, also the fallback of the
diversity-constrained one. -/
def selectBestTile {γ : Type} (dist : γ → γ → ℚ) (cell : Cell γ)
    (tileMetadata : List (Tile γ)) (usageCount : List (String × ℕ))
    (gridSize : ℕ) (rand : ℕ) : Option (Tile γ) :=
  let totalCells := gridSize * gridSize
  let tileCount := tileMetadata.length
  let maxUsage := maxUsageOf totalCells tileCount
  let allCandidates := (tileMetadata.map (fun tile =>
      Candidate.mk tile (dist cell.lab tile.averageColorLab)
        (usageCountOf usageCount tile.filename))).insertionSort
    (fun a b => a.distance ≤ b.distance)
  (pickBestCandidate allCandidates maxUsage 3 rand).map (·.tile)

/-- `MosaicWorker.selectBestTileWithNeighborConstraint` (713-774): exclude
the neighbors' tile ids, and fall back to `selectBestTile` exactly when the
exclusion leaves zero candidates. -/
def selectBestTileWithNeighborConstraint {γ : Type} (dist : γ → γ → ℚ)
    (cell : Cell γ) (tileMetadata : List (Tile γ))
    (usageCount : List (String × ℕ)) (neighborTiles : List String)
    (gridSize : ℕ) (rand : ℕ) : Option (Tile γ) :=
  let totalCells := gridSize * gridSize
  let tileCount := tileMetadata.length
  let maxUsage := maxUsageOf totalCells tileCount
  let allCandidates := ((tileMetadata.filter
      (fun tile => !(decide (tile.filename ∈ neighborTiles)))).map (fun tile =>
      Candidate.mk tile (dist cell.lab tile.averageColorLab)
        (usageCountOf usageCount tile.filename))).insertionSort
    (fun a b => a.distance ≤ b.distance)
  if allCandidates.length = 0 then
    selectBestTile dist cell tileMetadata usageCount gridSize rand
  else
    (pickBestCandidate allCandidates maxUsage 4 rand).map (·.tile)

/-- The loop body of `getNeighborTiles`: check one direction `d`, append the
neighbor's tile id when that position is in-grid and already placed. -/
def neighborStep (x y : ℕ) (tileMap : List ((ℕ × ℕ) × String)) (gridSize : ℕ)
    (neighbors : List String) (d : ℤ × ℤ) : List String :=
  let nx := (x : ℤ) + d.1
  let ny := (y : ℤ) + d.2
  if 0 ≤ nx ∧ nx < gridSize ∧ 0 ≤ ny ∧ ny < gridSize then
    match mapGet tileMap (nx.toNat, ny.toNat) with
    | some t => neighbors ++ [t]
    | none => neighbors
  else neighbors

/-- `MosaicWorker.getNeighborTiles(x, y, tileMap, gridSize)` (663-688):
the tile ids already placed at the in-grid left/right/up/down neighbors. -/
def getNeighborTiles (x y : ℕ) (tileMap : List ((ℕ × ℕ) × String))
    (gridSize : ℕ) : List String :=
  [((-1 : ℤ), (0 : ℤ)), (1, 0), (0, -1), (0, 1)].foldl
    (neighborStep x y tileMap gridSize) []

/-- One entry of `result.tiles` (the placement list): grid coordinates and
the filename of the placed tile (the metadata snapshot the JS also stores is
derived from the same tile and is not modelled). -/
structure Placement where
  x : ℕ
  y : ℕ
  tile : String
deriving DecidableEq

/-- The mutable state of `generateMosaicGrid`'s placement loop:
`result.tiles`, `tileUsageCount` and the adjacency map `tileMap`
(keyed `(x, y)` for the JS string key `"x,y"`). -/
structure GridState where
  tiles : List Placement
  tileUsageCount : List (String × ℕ)
  tileMap : List ((ℕ × ℕ) × String)
deriving DecidableEq

/-- The body of the placement loop (578-651) for one cell: select a tile
(with or without the neighbor constraint), then record the placement,
increment the usage counter and extend the adjacency map.  A `none` from
the selection (the thrown `TypeError`) aborts the run. -/
def placeCell {γ : Type} (dist : γ → γ → ℚ) (neighborDiversity : Bool)
    (gridSize : ℕ) (tileMetadata : List (Tile γ)) (st : GridState)
    (cell : Cell γ) (rand : ℕ) : Option GridState :=
  let selectedTile :=
    if neighborDiversity then
      selectBestTileWithNeighborConstraint dist cell tileMetadata
        st.tileUsageCount (getNeighborTiles cell.x cell.y st.tileMap gridSize)
        gridSize rand
    else
      selectBestTile dist cell tileMetadata st.tileUsageCount gridSize rand
  match selectedTile with
  | none => none
  | some t => some
      { tiles := st.tiles ++ [⟨cell.x, cell.y, t.filename⟩],
        tileUsageCount := mapSet st.tileUsageCount t.filename
          (usageCountOf st.tileUsageCount t.filename + 1),
        tileMap := mapSet st.tileMap (cell.x, cell.y) t.filename }

/-- The sequential placement loop over the remaining cells; `i` is the cell
index feeding the random oracle. -/
def runCellsFrom {γ : Type} (dist : γ → γ → ℚ) (neighborDiversity : Bool)
    (gridSize : ℕ) (tileMetadata : List (Tile γ)) (rand : ℕ → ℕ) :
    List (Cell γ) → ℕ → GridState → Option GridState
  | [], _, st => some st
  | c :: rest, i, st =>
      match placeCell dist neighborDiversity gridSize tileMetadata st c (rand i) with
      | none => none
      | some st' => runCellsFrom dist neighborDiversity gridSize tileMetadata rand
          rest (i + 1) st'

/-- The row-major cell list built by `processSourceImage` (325-349):
`for y … for x … cells.push({x, y, …})`; `labOf` abstracts the cell's
representative color. -/
def gridCells {γ : Type} (gridSize : ℕ) (labOf : ℕ → ℕ → γ) : List (Cell γ) :=
  (List.range gridSize).flatMap (fun y =>
    (List.range gridSize).map (fun x => ⟨x, y, labOf x y⟩))

/-- `MosaicWorker.generateMosaicGrid` (545-660), restricted to its
placement bookkeeping (canvas drawing, progress and preview events carry no
state relevant to the claims).  Starts from empty usage and adjacency maps. -/
def generateMosaicGrid {γ : Type} (dist : γ → γ → ℚ) (neighborDiversity : Bool)
    (gridSize : ℕ) (labOf : ℕ → ℕ → γ) (tileMetadata : List (Tile γ))
    (rand : ℕ → ℕ) : Option GridState :=
  runCellsFrom dist neighborDiversity gridSize tileMetadata rand
    (gridCells gridSize labOf) 0 ⟨[], [], []⟩

/-! Selection lemmas: the pick always comes from `allCandidates`, and it
exists whenever `allCandidates` is nonempty. -/

theorem foldl_min_attained {γ : Type} :
    ∀ (rest : List (Candidate γ)) (init : ℕ),
      rest.foldl (fun m c' => min m c'.usage) init = init ∨
      ∃ c ∈ rest, rest.foldl (fun m c' => min m c'.usage) init = c.usage
  | [], _ => Or.inl rfl
  | c :: rest, init => by
      simp only [List.foldl_cons]
      rcases foldl_min_attained rest (min init c.usage) with h | ⟨c', hc', h⟩
      · rcases min_choice init c.usage with hm | hm
        · exact Or.inl (by rw [h, hm])
        · exact Or.inr ⟨c, List.mem_cons_self c rest, by rw [h, hm]⟩
      · exact Or.inr ⟨c', List.mem_cons_of_mem c hc', h⟩

theorem minimumUsage_attained {γ : Type} (l : List (Candidate γ)) (h : l ≠ []) :
    ∃ c ∈ l, c.usage = minimumUsage l := by
  match l with
  | [] => exact absurd rfl h
  | c :: rest =>
      unfold minimumUsage
      rcases foldl_min_attained rest c.usage with h1 | ⟨c', hc', h1⟩
      · exact ⟨c, List.mem_cons_self c rest, h1.symm⟩
      · exact ⟨c', List.mem_cons_of_mem c hc', h1.symm⟩

theorem filter_minimumUsage_ne_nil {γ : Type} (l : List (Candidate γ)) (h : l ≠ []) :
    l.filter (fun c => decide (c.usage = minimumUsage l)) ≠ [] := by
  obtain ⟨c, hc, he⟩ := minimumUsage_attained l h
  intro hnil
  have : c ∈ l.filter (fun c => decide (c.usage = minimumUsage l)) :=
    List.mem_filter.mpr ⟨hc, by simpa using he⟩
  rw [hnil] at this
  exact absurd this (List.not_mem_nil c)

theorem candidatesOf_subset {γ : Type} {all : List (Candidate γ)} {mu : ℕ}
    {c : Candidate γ} (h : c ∈ candidatesOf all mu) : c ∈ all := by
  unfold candidatesOf at h
  split at h
  · exact List.mem_of_mem_filter (List.mem_of_mem_take h)
  · exact List.mem_of_mem_filter (List.mem_of_mem_take h)

theorem candidatesOf_ne_nil {γ : Type} {all : List (Candidate γ)} {mu : ℕ}
    (h : all ≠ []) : candidatesOf all mu ≠ [] := by
  unfold candidatesOf
  split
  · next hlen =>
      intro hnil
      have := congrArg List.length hnil
      simp only [List.length_take, List.length_nil] at this
      omega
  · next hlen =>
      intro hnil
      have hne := filter_minimumUsage_ne_nil all h
      have := congrArg List.length hnil
      simp only [List.length_take, List.length_nil] at this
      have hpos : 0 < (all.filter (fun c => decide (c.usage = minimumUsage all))).length :=
        List.length_pos.mpr hne
      omega

theorem bestUsageCandidatesOf_subset {γ : Type} {all : List (Candidate γ)} {mu : ℕ}
    {c : Candidate γ} (h : c ∈ bestUsageCandidatesOf all mu) : c ∈ all :=
  candidatesOf_subset (List.mem_of_mem_filter h)

theorem bestUsageCandidatesOf_ne_nil {γ : Type} {all : List (Candidate γ)} {mu : ℕ}
    (h : all ≠ []) : bestUsageCandidatesOf all mu ≠ [] :=
  filter_minimumUsage_ne_nil _ (candidatesOf_ne_nil h)

theorem pickBestCandidate_mem {γ : Type} {all : List (Candidate γ)}
    {mu ratioNum rand : ℕ} {c : Candidate γ}
    (h : pickBestCandidate all mu ratioNum rand = some c) : c ∈ all := by
  simp only [pickBestCandidate] at h
  split at h
  · exact bestUsageCandidatesOf_subset (List.mem_of_mem_head? h)
  · have hmem := List.getElem?_mem h
    have h1 : c ∈ (bestUsageCandidatesOf all mu).insertionSort
        (fun a b => a.distance ≤ b.distance) :=
      List.mem_of_mem_take hmem
    exact bestUsageCandidatesOf_subset ((List.mem_insertionSort _).mp h1)

theorem take_getElem?_isSome {α : Type} (l : List α) (n rand : ℕ)
    (hl : l ≠ []) (hn : 0 < n) :
    ∃ c, (l.take n)[rand % (l.take n).length]? = some c := by
  have hpos : 0 < (l.take n).length := by
    rw [List.length_take]
    have := List.length_pos.mpr hl
    omega
  have hidx := Nat.mod_lt rand hpos
  rw [List.getElem?_eq_getElem hidx]
  exact ⟨_, rfl⟩

theorem pickBestCandidate_isSome {γ : Type} (all : List (Candidate γ))
    (mu ratioNum rand : ℕ) (h : all ≠ []) :
    ∃ c, pickBestCandidate all mu ratioNum rand = some c := by
  simp only [pickBestCandidate]
  have hbne : bestUsageCandidatesOf all mu ≠ [] := bestUsageCandidatesOf_ne_nil h
  split
  · next hlen =>
      match hb : bestUsageCandidatesOf all mu with
      | [] => exact absurd hb hbne
      | c :: rest => exact ⟨c, rfl⟩
  · next hlen =>
      have hsne : (bestUsageCandidatesOf all mu).insertionSort
          (fun a b => a.distance ≤ b.distance) ≠ [] := by
        intro hnil
        have := (List.perm_insertionSort
          (fun a b : Candidate γ => a.distance ≤ b.distance)
          (bestUsageCandidatesOf all mu)).length_eq
        rw [hnil] at this
        simp only [List.length_nil] at this
        exact hbne (List.length_eq_zero.mp this.symm)
      exact take_getElem?_isSome _ _ rand hsne
        (lt_of_lt_of_le one_pos (le_max_left _ _))

/-! Lemmas about the two selection procedures. -/

theorem insertionSort_ne_nil {α : Type} (r : α → α → Prop) [DecidableRel r]
    {l : List α} (h : l ≠ []) : l.insertionSort r ≠ [] := by
  intro hnil
  have hlen := (List.perm_insertionSort r l).length_eq
  rw [hnil] at hlen
  simp only [List.length_nil] at hlen
  exact h (List.length_eq_zero.mp hlen.symm)

/-- With an empty tile pool, `selectBestTile` throws (`none`): there is no
placeholder tile. -/
theorem selectBestTile_nil {γ : Type} (dist : γ → γ → ℚ) (cell : Cell γ)
    (usageCount : List (String × ℕ)) (gridSize rand : ℕ) :
    selectBestTile dist cell ([] : List (Tile γ)) usageCount gridSize rand = none := by
  simp [selectBestTile, pickBestCandidate, bestUsageCandidatesOf, candidatesOf,
    limitedCandidatesOf, minimumUsage, List.insertionSort]

theorem selectBestTile_mem {γ : Type} {dist : γ → γ → ℚ} {cell : Cell γ}
    {tileMetadata : List (Tile γ)} {usageCount : List (String × ℕ)}
    {gridSize rand : ℕ} {t : Tile γ}
    (h : selectBestTile dist cell tileMetadata usageCount gridSize rand = some t) :
    t ∈ tileMetadata := by
  simp only [selectBestTile] at h
  rw [Option.map_eq_some'] at h
  obtain ⟨c, hc, hct⟩ := h
  have hmem := pickBestCandidate_mem hc
  rw [List.mem_insertionSort] at hmem
  obtain ⟨tile, htile, hteq⟩ := List.mem_map.mp hmem
  rw [← hct, ← hteq]
  exact htile

theorem selectBestTile_isSome {γ : Type} (dist : γ → γ → ℚ) (cell : Cell γ)
    (tileMetadata : List (Tile γ)) (usageCount : List (String × ℕ))
    (gridSize rand : ℕ) (h : tileMetadata ≠ []) :
    ∃ t, selectBestTile dist cell tileMetadata usageCount gridSize rand = some t := by
  simp only [selectBestTile]
  have hmapne : tileMetadata.map (fun tile =>
      Candidate.mk tile (dist cell.lab tile.averageColorLab)
        (usageCountOf usageCount tile.filename)) ≠ [] := by
    intro hnil
    have := congrArg List.length hnil
    simp only [List.length_map, List.length_nil] at this
    exact h (List.length_eq_zero.mp this)
  have hne := insertionSort_ne_nil
    (fun a b : Candidate γ => a.distance ≤ b.distance) hmapne
  obtain ⟨c, hc⟩ := pickBestCandidate_isSome _ _ 3 rand hne
  exact ⟨c.tile, by rw [hc]; rfl⟩

/-- The survivors of the adjacency exclusion. -/
def neighborSurvivors {γ : Type} (tileMetadata : List (Tile γ))
    (neighborTiles : List String) : List (Tile γ) :=
  tileMetadata.filter (fun tile => !(decide (tile.filename ∈ neighborTiles)))

/-- The exclusion removes every candidate exactly when every tile id of the
pool occurs among the neighbors' ids. -/
theorem neighborSurvivors_eq_nil_iff {γ : Type} (tileMetadata : List (Tile γ))
    (neighborTiles : List String) :
    neighborSurvivors tileMetadata neighborTiles = [] ↔
      ∀ t ∈ tileMetadata, t.filename ∈ neighborTiles := by
  unfold neighborSurvivors
  rw [List.filter_eq_nil_iff]
  constructor
  · intro h t ht
    have := h t ht
    simpa using this
  · intro h t ht
    simpa using h t ht

/-- Case analysis of `selectBestTileWithNeighborConstraint`: the fallback is
taken exactly when the exclusion leaves zero candidates, and otherwise the
pick is one of the survivors (so it differs from every neighbor's tile id). -/
theorem selectBestTileWithNeighborConstraint_spec {γ : Type} (dist : γ → γ → ℚ)
    (cell : Cell γ) (tileMetadata : List (Tile γ))
    (usageCount : List (String × ℕ)) (neighborTiles : List String)
    (gridSize rand : ℕ) :
    (neighborSurvivors tileMetadata neighborTiles = [] →
      selectBestTileWithNeighborConstraint dist cell tileMetadata usageCount
        neighborTiles gridSize rand =
      selectBestTile dist cell tileMetadata usageCount gridSize rand) ∧
    (neighborSurvivors tileMetadata neighborTiles ≠ [] →
      ∃ t, selectBestTileWithNeighborConstraint dist cell tileMetadata usageCount
          neighborTiles gridSize rand = some t ∧
        t ∈ tileMetadata ∧ t.filename ∉ neighborTiles) := by
  constructor
  · intro hnil
    simp only [selectBestTileWithNeighborConstraint]
    rw [show tileMetadata.filter (fun tile => !(decide (tile.filename ∈ neighborTiles)))
        = neighborSurvivors tileMetadata neighborTiles from rfl, hnil]
    simp [List.insertionSort]
  · intro hne
    simp only [selectBestTileWithNeighborConstraint]
    rw [show tileMetadata.filter (fun tile => !(decide (tile.filename ∈ neighborTiles)))
        = neighborSurvivors tileMetadata neighborTiles from rfl]
    have hmapne : (neighborSurvivors tileMetadata neighborTiles).map (fun tile =>
        Candidate.mk tile (dist cell.lab tile.averageColorLab)
          (usageCountOf usageCount tile.filename)) ≠ [] := by
      intro hnil
      have := congrArg List.length hnil
      simp only [List.length_map, List.length_nil] at this
      exact hne (List.length_eq_zero.mp this)
    have hlen := insertionSort_ne_nil
      (fun a b : Candidate γ => a.distance ≤ b.distance) hmapne
    rw [if_neg (by
      intro hzero
      exact hlen (List.length_eq_zero.mp hzero))]
    obtain ⟨c, hc⟩ := pickBestCandidate_isSome _ _ 4 rand hlen
    refine ⟨c.tile, by rw [hc]; rfl, ?_, ?_⟩
    · have hmem := pickBestCandidate_mem hc
      rw [List.mem_insertionSort] at hmem
      obtain ⟨tile, htile, hteq⟩ := List.mem_map.mp hmem
      rw [← hteq]
      exact List.mem_of_mem_filter htile
    · have hmem := pickBestCandidate_mem hc
      rw [List.mem_insertionSort] at hmem
      obtain ⟨tile, htile, hteq⟩ := List.mem_map.mp hmem
      have := List.of_mem_filter htile
      rw [← hteq]
      simpa using this

/-- Any successful constrained selection returns a tile of the pool. -/
theorem selectBestTileWithNeighborConstraint_mem {γ : Type} {dist : γ → γ → ℚ}
    {cell : Cell γ} {tileMetadata : List (Tile γ)}
    {usageCount : List (String × ℕ)} {neighborTiles : List String}
    {gridSize rand : ℕ} {t : Tile γ}
    (h : selectBestTileWithNeighborConstraint dist cell tileMetadata usageCount
        neighborTiles gridSize rand = some t) :
    t ∈ tileMetadata := by
  simp only [selectBestTileWithNeighborConstraint] at h
  split at h
  · exact selectBestTile_mem h
  · rw [Option.map_eq_some'] at h
    obtain ⟨c, hc, hct⟩ := h
    have hmem := pickBestCandidate_mem hc
    rw [List.mem_insertionSort] at hmem
    obtain ⟨tile, htile, hteq⟩ := List.mem_map.mp hmem
    rw [← hct, ← hteq]
    exact List.mem_of_mem_filter htile

/-- Any successful constrained selection exists for a nonempty pool. -/
theorem selectBestTileWithNeighborConstraint_isSome {γ : Type} (dist : γ → γ → ℚ)
    (cell : Cell γ) (tileMetadata : List (Tile γ))
    (usageCount : List (String × ℕ)) (neighborTiles : List String)
    (gridSize rand : ℕ) (h : tileMetadata ≠ []) :
    ∃ t, selectBestTileWithNeighborConstraint dist cell tileMetadata usageCount
      neighborTiles gridSize rand = some t := by
  by_cases hs : neighborSurvivors tileMetadata neighborTiles = []
  · rw [(selectBestTileWithNeighborConstraint_spec dist cell tileMetadata usageCount
      neighborTiles gridSize rand).1 hs]
    exact selectBestTile_isSome dist cell tileMetadata usageCount gridSize rand h
  · obtain ⟨t, ht, _, _⟩ := (selectBestTileWithNeighborConstraint_spec dist cell
      tileMetadata usageCount neighborTiles gridSize rand).2 hs
    exact ⟨t, ht⟩

/-! Association-list (JS `Map`) lemmas. -/

/-- The sum of all values of a usage counter
(`Σ` over `tileUsageCount.values()`). -/
def sumValues (m : List (String × ℕ)) : ℕ := (m.map (·.2)).sum

theorem mapGet_nil {κ ν : Type} [DecidableEq κ] (k : κ) :
    mapGet ([] : List (κ × ν)) k = none := rfl

theorem mapGet_cons {κ ν : Type} [DecidableEq κ] (p : κ × ν) (rest : List (κ × ν))
    (k : κ) : mapGet (p :: rest) k = if p.1 = k then some p.2 else mapGet rest k := by
  by_cases h : p.1 = k
  · simp [mapGet, List.find?_cons_of_pos, h]
  · simp [mapGet, List.find?_cons_of_neg, h]

theorem mapSet_cons_ne {κ ν : Type} [DecidableEq κ] {p : κ × ν} {k : κ}
    (h : p.1 ≠ k) (rest : List (κ × ν)) (v : ν) :
    mapSet (p :: rest) k v = p :: mapSet rest k v := by
  unfold mapSet
  by_cases hr : rest.any (fun q => decide (q.1 = k))
  · rw [if_pos (by simp [List.any_cons, hr]), if_pos hr]
    simp [h]
  · rw [if_neg (by simp [List.any_cons, hr, h]), if_neg hr]
    simp

theorem mapSet_append_of_not_mem {κ ν : Type} [DecidableEq κ]
    {m : List (κ × ν)} {k : κ} (h : k ∉ m.map (·.1)) (v : ν) :
    mapSet m k v = m ++ [(k, v)] := by
  unfold mapSet
  rw [if_neg]
  intro hany
  rw [List.any_eq_true] at hany
  obtain ⟨p, hp, hpk⟩ := hany
  exact h (List.mem_map.mpr ⟨p, hp, by simpa using hpk⟩)

theorem mapSet_keys {κ ν : Type} [DecidableEq κ] (m : List (κ × ν)) (k : κ) (v : ν) :
    (mapSet m k v).map (·.1) = if m.any (fun p => decide (p.1 = k))
      then m.map (·.1) else m.map (·.1) ++ [k] := by
  unfold mapSet
  split
  · rw [List.map_map]
    apply List.map_congr_left
    intro p _
    by_cases h : p.1 = k
    · simp [h]
    · simp [h]
  · simp

theorem mapSet_keys_nodup {κ ν : Type} [DecidableEq κ] {m : List (κ × ν)}
    (hnd : (m.map (·.1)).Nodup) (k : κ) (v : ν) :
    ((mapSet m k v).map (·.1)).Nodup := by
  rw [mapSet_keys]
  split
  · exact hnd
  · next hany =>
      rw [List.nodup_append]
      refine ⟨hnd, List.nodup_singleton k, ?_⟩
      intro a ha hb
      simp only [List.mem_singleton] at hb
      subst hb
      obtain ⟨p, hp, hpk⟩ := List.mem_map.mp ha
      exact hany (List.any_eq_true.mpr ⟨p, hp, by simpa using hpk⟩)

theorem map_if_key_eq_self {κ ν : Type} [DecidableEq κ] {m : List (κ × ν)} {k : κ}
    (h : k ∉ m.map (·.1)) (v : ν) :
    m.map (fun p => if p.1 = k then (k, v) else p) = m := by
  induction m with
  | nil => rfl
  | cons p rest ih =>
      simp only [List.map_cons, List.mem_map, not_exists] at h ⊢
      have hp : p.1 ≠ k := by
        intro he
        exact absurd (List.mem_map.mpr ⟨p, List.mem_cons_self p rest, he⟩) h
      rw [if_neg hp, ih (by
        intro hm
        obtain ⟨q, hq, hqk⟩ := List.mem_map.mp hm
        exact absurd (List.mem_map.mpr ⟨q, List.mem_cons_of_mem p hq, hqk⟩) h)]

theorem sumValues_mapSet_incr {m : List (String × ℕ)} (k : String)
    (hnd : (m.map (·.1)).Nodup) :
    sumValues (mapSet m k (usageCountOf m k + 1)) = sumValues m + 1 := by
  induction m with
  | nil =>
      simp [sumValues, mapSet, usageCountOf, mapGet]
  | cons p rest ih =>
      simp only [List.map_cons, List.nodup_cons] at hnd
      by_cases h : p.1 = k
      · have hrest : k ∉ rest.map (·.1) := by
          rw [← h]
          exact hnd.1
        have hget : usageCountOf (p :: rest) k = p.2 := by
          simp [usageCountOf, mapGet_cons, h]
        unfold mapSet
        rw [if_pos (by simp [List.any_cons, h])]
        simp only [List.map_cons, if_pos h]
        rw [map_if_key_eq_self hrest]
        simp [sumValues, hget]
        omega
      · have hget : usageCountOf (p :: rest) k = usageCountOf rest k := by
          simp [usageCountOf, mapGet_cons, h]
        rw [hget, mapSet_cons_ne h]
        simp only [sumValues, List.map_cons, List.sum_cons]
        have := ih hnd.2
        simp only [sumValues] at this
        omega

theorem mapGet_eq_some_of_mem {κ ν : Type} [DecidableEq κ] {m : List (κ × ν)}
    {k : κ} {v : ν} (hnd : (m.map (·.1)).Nodup) (h : (k, v) ∈ m) :
    mapGet m k = some v := by
  induction m with
  | nil => exact absurd h (List.not_mem_nil _)
  | cons p rest ih =>
      simp only [List.map_cons, List.nodup_cons] at hnd
      rw [mapGet_cons]
      rcases List.mem_cons.mp h with he | hm
      · rw [← he]
        simp
      · have hp : p.1 ≠ k := by
          intro hpk
          exact hnd.1 (List.mem_map.mpr ⟨(k, v), hm, by simpa using hpk.symm⟩)
        rw [if_neg hp]
        exact ih hnd.2 hm

/-! Adjacency of grid positions (horizontal or vertical neighbors). -/

/-- Two grid positions are adjacent when they differ by one step
horizontally or vertically. -/
def adjacentPos (a b : ℕ × ℕ) : Prop :=
  (a.1 = b.1 ∧ (a.2 + 1 = b.2 ∨ b.2 + 1 = a.2)) ∨
  (a.2 = b.2 ∧ (a.1 + 1 = b.1 ∨ b.1 + 1 = a.1))

instance (a b : ℕ × ℕ) : Decidable (adjacentPos a b) := by
  unfold adjacentPos
  infer_instance

theorem adjacentPos_symm {a b : ℕ × ℕ} (h : adjacentPos a b) : adjacentPos b a := by
  unfold adjacentPos at h ⊢
  omega

theorem adjacentPos_irrefl (a : ℕ × ℕ) : ¬ adjacentPos a a := by
  unfold adjacentPos
  omega

/-! `getNeighborTiles` lemmas. -/

theorem neighborStep_length_le (x y : ℕ) (tileMap : List ((ℕ × ℕ) × String))
    (gridSize : ℕ) (neighbors : List String) (d : ℤ × ℤ) :
    (neighborStep x y tileMap gridSize neighbors d).length ≤ neighbors.length + 1 := by
  simp only [neighborStep]
  split
  · split
    · simp
    · simp
  · simp

theorem neighborStep_mono {x y : ℕ} {tileMap : List ((ℕ × ℕ) × String)}
    {gridSize : ℕ} {neighbors : List String} {d : ℤ × ℤ} {f : String}
    (h : f ∈ neighbors) : f ∈ neighborStep x y tileMap gridSize neighbors d := by
  simp only [neighborStep]
  split
  · split
    · exact List.mem_append_left _ h
    · exact h
  · exact h

theorem neighborStep_hit {x y : ℕ} {tileMap : List ((ℕ × ℕ) × String)}
    {gridSize : ℕ} {f : String} (neighbors : List String) (d : ℤ × ℤ)
    (hb : 0 ≤ (x : ℤ) + d.1 ∧ (x : ℤ) + d.1 < gridSize ∧
      0 ≤ (y : ℤ) + d.2 ∧ (y : ℤ) + d.2 < gridSize)
    (hget : mapGet tileMap (((x : ℤ) + d.1).toNat, ((y : ℤ) + d.2).toNat) = some f) :
    f ∈ neighborStep x y tileMap gridSize neighbors d := by
  simp only [neighborStep]
  rw [if_pos hb, hget]
  simp

theorem getNeighborTiles_length_le (x y : ℕ) (tileMap : List ((ℕ × ℕ) × String))
    (gridSize : ℕ) : (getNeighborTiles x y tileMap gridSize).length ≤ 4 := by
  unfold getNeighborTiles
  simp only [List.foldl_cons, List.foldl_nil]
  have h1 := neighborStep_length_le x y tileMap gridSize [] ((-1 : ℤ), (0 : ℤ))
  have h2 := neighborStep_length_le x y tileMap gridSize
    (neighborStep x y tileMap gridSize [] ((-1 : ℤ), (0 : ℤ))) ((1 : ℤ), (0 : ℤ))
  have h3 := neighborStep_length_le x y tileMap gridSize
    (neighborStep x y tileMap gridSize
      (neighborStep x y tileMap gridSize [] ((-1 : ℤ), (0 : ℤ))) ((1 : ℤ), (0 : ℤ)))
    ((0 : ℤ), (-1 : ℤ))
  have h4 := neighborStep_length_le x y tileMap gridSize
    (neighborStep x y tileMap gridSize
      (neighborStep x y tileMap gridSize
        (neighborStep x y tileMap gridSize [] ((-1 : ℤ), (0 : ℤ))) ((1 : ℤ), (0 : ℤ)))
      ((0 : ℤ), (-1 : ℤ))) ((0 : ℤ), (1 : ℤ))
  simp only [List.length_nil] at h1
  omega

/-- Completeness: a tile already placed at an in-grid neighbor of `(x, y)`
is collected by `getNeighborTiles`. -/
theorem getNeighborTiles_complete {x y nx ny : ℕ}
    {tileMap : List ((ℕ × ℕ) × String)} {gridSize : ℕ} {f : String}
    (hadj : adjacentPos (nx, ny) (x, y)) (hnx : nx < gridSize) (hny : ny < gridSize)
    (hget : mapGet tileMap (nx, ny) = some f) :
    f ∈ getNeighborTiles x y tileMap gridSize := by
  unfold getNeighborTiles
  simp only [List.foldl_cons, List.foldl_nil]
  rcases hadj with ⟨hx, hy | hy⟩ | ⟨hy, hx | hx⟩
  · -- ny + 1 = y: the neighbor above, direction (0, -1)
    apply neighborStep_mono
    apply neighborStep_hit _ ((0 : ℤ), (-1 : ℤ))
    · simp only at hx hy ⊢
      omega
    · have h1 : ((x : ℤ) + 0).toNat = nx := by simp only at hx; omega
      have h2 : ((y : ℤ) + (-1)).toNat = ny := by simp only at hy; omega
      rw [h1, h2]
      exact hget
  · -- y + 1 = ny: the neighbor below, direction (0, 1)
    apply neighborStep_hit _ ((0 : ℤ), (1 : ℤ))
    · simp only at hx hy ⊢
      omega
    · have h1 : ((x : ℤ) + 0).toNat = nx := by simp only at hx; omega
      have h2 : ((y : ℤ) + 1).toNat = ny := by simp only at hy; omega
      rw [h1, h2]
      exact hget
  · -- nx + 1 = x: the left neighbor, direction (-1, 0)
    apply neighborStep_mono
    apply neighborStep_mono
    apply neighborStep_mono
    apply neighborStep_hit _ ((-1 : ℤ), (0 : ℤ))
    · simp only at hx hy ⊢
      omega
    · have h1 : ((x : ℤ) + (-1)).toNat = nx := by simp only at hx; omega
      have h2 : ((y : ℤ) + 0).toNat = ny := by simp only at hy; omega
      rw [h1, h2]
      exact hget
  · -- x + 1 = nx: the right neighbor, direction (1, 0)
    apply neighborStep_mono
    apply neighborStep_mono
    apply neighborStep_hit _ ((1 : ℤ), (0 : ℤ))
    · simp only at hx hy ⊢
      omega
    · have h1 : ((x : ℤ) + 1).toNat = nx := by simp only at hx; omega
      have h2 : ((y : ℤ) + 0).toNat = ny := by simp only at hy; omega
      rw [h1, h2]
      exact hget

/-! The placement loop: totality and bookkeeping (for C1 and C9). -/

theorem placeCell_isSome {γ : Type} (dist : γ → γ → ℚ) (nd : Bool) (gridSize : ℕ)
    (tileMetadata : List (Tile γ)) (st : GridState) (cell : Cell γ) (rand : ℕ)
    (htiles : tileMetadata ≠ []) :
    ∃ st', placeCell dist nd gridSize tileMetadata st cell rand = some st' := by
  simp only [placeCell]
  cases nd
  · obtain ⟨t, ht⟩ := selectBestTile_isSome dist cell tileMetadata
      st.tileUsageCount gridSize rand htiles
    rw [if_neg (by simp), ht]
    exact ⟨_, rfl⟩
  · obtain ⟨t, ht⟩ := selectBestTileWithNeighborConstraint_isSome dist cell
      tileMetadata st.tileUsageCount (getNeighborTiles cell.x cell.y st.tileMap gridSize)
      gridSize rand htiles
    rw [if_pos rfl, ht]
    exact ⟨_, rfl⟩

/-- What one successful `placeCell` step does to the loop state. -/
theorem placeCell_eq_some {γ : Type} {dist : γ → γ → ℚ} {nd : Bool} {gridSize : ℕ}
    {tileMetadata : List (Tile γ)} {st st' : GridState} {cell : Cell γ} {rand : ℕ}
    (h : placeCell dist nd gridSize tileMetadata st cell rand = some st') :
    ∃ t : Tile γ, t ∈ tileMetadata ∧
      st' = { tiles := st.tiles ++ [⟨cell.x, cell.y, t.filename⟩],
              tileUsageCount := mapSet st.tileUsageCount t.filename
                (usageCountOf st.tileUsageCount t.filename + 1),
              tileMap := mapSet st.tileMap (cell.x, cell.y) t.filename } := by
  simp only [placeCell] at h
  cases nd
  · rw [if_neg (by simp)] at h
    match hsel : selectBestTile dist cell tileMetadata st.tileUsageCount gridSize rand with
    | none =>
        rw [hsel] at h
        exact absurd h (by simp)
    | some t =>
        rw [hsel] at h
        simp only [Option.some.injEq] at h
        exact ⟨t, selectBestTile_mem hsel, h.symm⟩
  · rw [if_pos rfl] at h
    match hsel : selectBestTileWithNeighborConstraint dist cell tileMetadata
        st.tileUsageCount (getNeighborTiles cell.x cell.y st.tileMap gridSize)
        gridSize rand with
    | none =>
        rw [hsel] at h
        exact absurd h (by simp)
    | some t =>
        rw [hsel] at h
        simp only [Option.some.injEq] at h
        exact ⟨t, selectBestTileWithNeighborConstraint_mem hsel, h.symm⟩

theorem runCellsFrom_total {γ : Type} (dist : γ → γ → ℚ) (nd : Bool) (gridSize : ℕ)
    (tileMetadata : List (Tile γ)) (rand : ℕ → ℕ) (htiles : tileMetadata ≠ []) :
    ∀ (cells : List (Cell γ)) (i : ℕ) (st : GridState),
      (st.tileUsageCount.map (·.1)).Nodup →
      sumValues st.tileUsageCount = st.tiles.length →
      ∃ st', runCellsFrom dist nd gridSize tileMetadata rand cells i st = some st' ∧
        st'.tiles.map (fun p => (p.x, p.y)) =
          st.tiles.map (fun p => (p.x, p.y)) ++ cells.map (fun c => (c.x, c.y)) ∧
        (st'.tileUsageCount.map (·.1)).Nodup ∧
        sumValues st'.tileUsageCount = st'.tiles.length ∧
        (∀ p ∈ st'.tiles, p ∈ st.tiles ∨ p.tile ∈ tileMetadata.map (·.filename))
  | [], i, st => by
      intro hnd hsum
      exact ⟨st, rfl, by simp, hnd, hsum, fun p hp => Or.inl hp⟩
  | c :: rest, i, st => by
      intro hnd hsum
      obtain ⟨st₁, hp⟩ := placeCell_isSome dist nd gridSize tileMetadata st c (rand i) htiles
      obtain ⟨t, htmem, hst₁⟩ := placeCell_eq_some hp
      have hnd₁ : (st₁.tileUsageCount.map (·.1)).Nodup := by
        rw [hst₁]
        exact mapSet_keys_nodup hnd _ _
      have hsum₁ : sumValues st₁.tileUsageCount = st₁.tiles.length := by
        rw [hst₁]
        simp only
        rw [sumValues_mapSet_incr t.filename hnd, hsum]
        simp
      obtain ⟨st', hrun, hcoords, hnd', hsum', hmem'⟩ :=
        runCellsFrom_total dist nd gridSize tileMetadata rand htiles rest (i + 1)
          st₁ hnd₁ hsum₁
      refine ⟨st', ?_, ?_, hnd', hsum', ?_⟩
      · simp only [runCellsFrom, hp]
        exact hrun
      · rw [hcoords, hst₁]
        simp
      · intro p hp'
        rcases hmem' p hp' with h1 | h1
        · rw [hst₁] at h1
          simp only at h1
          rcases List.mem_append.mp h1 with h2 | h2
          · exact Or.inl h2
          · simp only [List.mem_singleton] at h2
            subst h2
            exact Or.inr (List.mem_map.mpr ⟨t, htmem, rfl⟩)
        · exact Or.inr h1

/-! Row-major grid coordinates. -/

/-- The coordinate list of the row-major cell enumeration. -/
def gridCoords (gridSize : ℕ) : List (ℕ × ℕ) :=
  (List.range gridSize).flatMap (fun y =>
    (List.range gridSize).map (fun x => (x, y)))

theorem gridCells_map_coords {γ : Type} (gridSize : ℕ) (labOf : ℕ → ℕ → γ) :
    (gridCells gridSize labOf).map (fun c => (c.x, c.y)) = gridCoords gridSize := by
  unfold gridCells gridCoords
  rw [List.map_flatMap]
  apply List.flatMap_congr
  intro y _
  rw [List.map_map]
  rfl

theorem gridCoords_mem (gridSize x y : ℕ) :
    (x, y) ∈ gridCoords gridSize ↔ x < gridSize ∧ y < gridSize := by
  unfold gridCoords
  simp only [List.mem_flatMap, List.mem_map, List.mem_range, Prod.mk.injEq]
  constructor
  · rintro ⟨y', hy', x', hx', hxx, hyy⟩
    omega
  · rintro ⟨hx, hy⟩
    exact ⟨y, hy, x, hx, rfl, rfl⟩

theorem gridCoords_nodup (gridSize : ℕ) : (gridCoords gridSize).Nodup := by
  unfold gridCoords
  rw [List.nodup_flatMap]
  constructor
  · intro y _
    exact (List.nodup_range gridSize).map (fun a b h => by
      simpa using congrArg Prod.fst h)
  · have hlt := List.pairwise_lt_range gridSize
    apply hlt.imp
    intro a b hab
    intro p hpa hpb
    simp only [List.mem_map, List.mem_range] at hpa hpb
    obtain ⟨xa, _, ha⟩ := hpa
    obtain ⟨xb, _, hb⟩ := hpb
    rw [← ha] at hb
    have := congrArg Prod.snd hb
    simp only at this
    omega

theorem gridCoords_length (gridSize : ℕ) :
    (gridCoords gridSize).length = gridSize * gridSize := by
  unfold gridCoords
  rw [List.length_flatMap]
  have : (List.range gridSize).map (List.length ∘ fun y =>
      (List.range gridSize).map (fun x => (x, y))) =
      (List.range gridSize).map (fun _ => gridSize) := by
    apply List.map_congr_left
    intro y _
    simp
  rw [this]
  rw [List.map_const', List.sum_replicate, List.length_range, smul_eq_mul]

theorem countP_eq_one_of_nodup_mem {α : Type} [DecidableEq α] {l : List α}
    (hnd : l.Nodup) {a : α} (ha : a ∈ l) :
    l.countP (fun x => decide (x = a)) = 1 := by
  induction l with
  | nil => exact absurd ha (List.not_mem_nil a)
  | cons b rest ih =>
      rw [List.nodup_cons] at hnd
      rw [List.countP_cons]
      rcases List.mem_cons.mp ha with he | hm
      · subst he
        have hzero : rest.countP (fun x => decide (x = a)) = 0 := by
          rw [List.countP_eq_zero]
          intro x hx
          simp only [decide_eq_true_eq]
          intro hxa
          subst hxa
          exact hnd.1 hx
        simp [hzero]
      · have hb : b ≠ a := by
          intro he
          subst he
          exact hnd.1 hm
        rw [ih hnd.2 hm]
        simp [hb]

/-- C1: a completed mosaic-grid run over a non-empty tile pool places
exactly one tile in every grid cell `(x, y)` with `x, y < gridSize`
(placements also never fall outside the grid), and the usage-counter values
sum to `gridSize²`. -/
theorem mosaic_grid_every_cell_once {γ : Type} (dist : γ → γ → ℚ) (nd : Bool)
    (gridSize : ℕ) (labOf : ℕ → ℕ → γ) (tileMetadata : List (Tile γ))
    (rand : ℕ → ℕ) (htiles : tileMetadata ≠ []) :
    ∃ st', generateMosaicGrid dist nd gridSize labOf tileMetadata rand = some st' ∧
      (∀ x y, x < gridSize → y < gridSize →
        (st'.tiles.filter (fun p => decide ((p.x, p.y) = (x, y)))).length = 1) ∧
      (∀ p ∈ st'.tiles, p.x < gridSize ∧ p.y < gridSize) ∧
      sumValues st'.tileUsageCount = gridSize * gridSize := by
  obtain ⟨st', hrun, hcoords, _, hsum, _⟩ :=
    runCellsFrom_total dist nd gridSize tileMetadata rand htiles
      (gridCells gridSize labOf) 0 ⟨[], [], []⟩ (by simp) (by simp [sumValues])
  have hcoords' : st'.tiles.map (fun p => (p.x, p.y)) = gridCoords gridSize := by
    rw [hcoords]
    simp [gridCells_map_coords]
  refine ⟨st', hrun, ?_, ?_, ?_⟩
  · intro x y hx hy
    rw [← List.countP_eq_length_filter]
    have : st'.tiles.countP (fun p => decide ((p.x, p.y) = (x, y))) =
        (st'.tiles.map (fun p => (p.x, p.y))).countP (fun xy => decide (xy = (x, y))) := by
      rw [List.countP_map]
      rfl
    rw [this, hcoords']
    exact countP_eq_one_of_nodup_mem (gridCoords_nodup gridSize)
      ((gridCoords_mem gridSize x y).mpr ⟨hx, hy⟩)
  · intro p hp
    have : (p.x, p.y) ∈ gridCoords gridSize := by
      rw [← hcoords']
      exact List.mem_map.mpr ⟨p, hp, rfl⟩
    exact (gridCoords_mem gridSize p.x p.y).mp this
  · rw [hsum]
    have := congrArg List.length hcoords'
    simp only [List.length_map, gridCoords_length] at this
    exact this

/-- Closed witness for `mosaic_grid_every_cell_once`: a concrete 1×1 run
with one tile. -/
theorem mosaic_grid_every_cell_once_witness :
    ([⟨"a", ()⟩] : List (Tile Unit)) ≠ [] ∧
    ∃ st', generateMosaicGrid (fun _ _ => (0 : ℚ)) true 1 (fun _ _ => ())
        [⟨"a", ()⟩] (fun _ => 0) = some st' ∧
      (∀ x y, x < 1 → y < 1 →
        (st'.tiles.filter (fun p => decide ((p.x, p.y) = (x, y)))).length = 1) ∧
      (∀ p ∈ st'.tiles, p.x < 1 ∧ p.y < 1) ∧
      sumValues st'.tileUsageCount = 1 * 1 :=
  ⟨by decide, mosaic_grid_every_cell_once (fun _ _ => (0 : ℚ)) true 1 (fun _ _ => ())
    [⟨"a", ()⟩] (fun _ => 0) (by decide)⟩

/-! Neighbor-diversity: no two adjacent placements share a tile id (C2). -/

theorem nodup_subset_length {α : Type} [DecidableEq α] {l₁ l₂ : List α}
    (hnd : l₁.Nodup) (hsub : ∀ a ∈ l₁, a ∈ l₂) : l₁.length ≤ l₂.length := by
  calc l₁.length = l₁.toFinset.card := (List.toFinset_card_of_nodup hnd).symm
  _ ≤ l₂.toFinset.card := Finset.card_le_card (fun a ha =>
      List.mem_toFinset.mpr (hsub a (List.mem_toFinset.mp ha)))
  _ ≤ l₂.length := List.toFinset_card_le l₂

/-- With at least five distinct tile ids in the pool and at most four
neighbor ids, the exclusion can never remove every candidate. -/
theorem neighborSurvivors_ne_nil_of_pool {γ : Type} (tileMetadata : List (Tile γ))
    (neighborTiles : List String)
    (h5 : 5 ≤ (tileMetadata.map (·.filename)).dedup.length)
    (hlen : neighborTiles.length ≤ 4) :
    neighborSurvivors tileMetadata neighborTiles ≠ [] := by
  intro hnil
  have hall := (neighborSurvivors_eq_nil_iff _ _).mp hnil
  have hsub : ∀ f ∈ (tileMetadata.map (·.filename)).dedup, f ∈ neighborTiles := by
    intro f hf
    rw [List.mem_dedup] at hf
    obtain ⟨t, ht, he⟩ := List.mem_map.mp hf
    rw [← he]
    exact hall t ht
  have := nodup_subset_length (List.nodup_dedup _) hsub
  omega

/-- A successful `placeCell` step with diversity enabled comes from a
successful constrained selection. -/
theorem placeCell_true_eq_some {γ : Type} {dist : γ → γ → ℚ} {gridSize : ℕ}
    {tileMetadata : List (Tile γ)} {st st' : GridState} {cell : Cell γ} {rand : ℕ}
    (h : placeCell dist true gridSize tileMetadata st cell rand = some st') :
    ∃ t : Tile γ,
      selectBestTileWithNeighborConstraint dist cell tileMetadata st.tileUsageCount
        (getNeighborTiles cell.x cell.y st.tileMap gridSize) gridSize rand = some t ∧
      st' = { tiles := st.tiles ++ [⟨cell.x, cell.y, t.filename⟩],
              tileUsageCount := mapSet st.tileUsageCount t.filename
                (usageCountOf st.tileUsageCount t.filename + 1),
              tileMap := mapSet st.tileMap (cell.x, cell.y) t.filename } := by
  simp only [placeCell, if_pos rfl] at h
  match hsel : selectBestTileWithNeighborConstraint dist cell tileMetadata
      st.tileUsageCount (getNeighborTiles cell.x cell.y st.tileMap gridSize)
      gridSize rand with
  | none =>
      rw [hsel] at h
      exact absurd h (by simp)
  | some t =>
      rw [hsel] at h
      exact ⟨t, rfl, (Option.some.inj h).symm⟩

theorem runCellsFrom_adjacency {γ : Type} (dist : γ → γ → ℚ) (gridSize : ℕ)
    (tileMetadata : List (Tile γ)) (rand : ℕ → ℕ)
    (h5 : 5 ≤ (tileMetadata.map (·.filename)).dedup.length) :
    ∀ (cells : List (Cell γ)) (i : ℕ) (st st' : GridState),
      runCellsFrom dist true gridSize tileMetadata rand cells i st = some st' →
      st.tileMap = st.tiles.map (fun p => ((p.x, p.y), p.tile)) →
      (st.tiles.map (fun p => (p.x, p.y)) ++ cells.map (fun c => (c.x, c.y))).Nodup →
      (∀ p ∈ st.tiles, p.x < gridSize ∧ p.y < gridSize) →
      (∀ c ∈ cells, c.x < gridSize ∧ c.y < gridSize) →
      st.tiles.Pairwise (fun p q => adjacentPos (p.x, p.y) (q.x, q.y) → p.tile ≠ q.tile) →
      st'.tiles.Pairwise (fun p q => adjacentPos (p.x, p.y) (q.x, q.y) → p.tile ≠ q.tile)
  | [], i, st, st' => by
      intro hrun hmapcorr hnd hbounds hcb hpw
      simp only [runCellsFrom, Option.some.injEq] at hrun
      rw [← hrun]
      exact hpw
  | c :: rest, i, st, st' => by
      intro hrun hmapcorr hnd hbounds hcb hpw
      simp only [runCellsFrom] at hrun
      match hp : placeCell dist true gridSize tileMetadata st c (rand i) with
      | none =>
          rw [hp] at hrun
          exact absurd hrun (by simp)
      | some st₁ =>
        rw [hp] at hrun
        obtain ⟨t, hsel, hst₁⟩ := placeCell_true_eq_some hp
        -- the selected tile avoids every neighbor id
        have hsurv : neighborSurvivors tileMetadata
            (getNeighborTiles c.x c.y st.tileMap gridSize) ≠ [] :=
          neighborSurvivors_ne_nil_of_pool tileMetadata _ h5
            (getNeighborTiles_length_le c.x c.y st.tileMap gridSize)
        obtain ⟨t', hsel', _, hfresh⟩ :=
          (selectBestTileWithNeighborConstraint_spec dist c tileMetadata
            st.tileUsageCount (getNeighborTiles c.x c.y st.tileMap gridSize)
            gridSize (rand i)).2 hsurv
        have htt : t = t' := by
          rw [hsel] at hsel'
          exact (Option.some.injEq _ _).mp hsel'
        subst htt
        -- keys of the adjacency map are the placed coordinates
        have hkeys : st.tileMap.map (·.1) = st.tiles.map (fun p => (p.x, p.y)) := by
          rw [hmapcorr, List.map_map]
          rfl
        have hndtiles : (st.tiles.map (fun p => (p.x, p.y))).Nodup :=
          (List.nodup_append.mp hnd).1
        have hnddisj := (List.nodup_append.mp hnd).2.2
        have hccfresh : (c.x, c.y) ∉ st.tiles.map (fun p => (p.x, p.y)) := by
          intro hmem
          exact hnddisj hmem (by simp)
        -- every already-placed adjacent tile id is among the neighbor ids
        have hcross : ∀ q ∈ st.tiles,
            adjacentPos (q.x, q.y) (c.x, c.y) → q.tile ≠ t.filename := by
          intro q hq hadj he
          have hqb := hbounds q hq
          have hqmem : ((q.x, q.y), q.tile) ∈ st.tileMap := by
            rw [hmapcorr]
            exact List.mem_map.mpr ⟨q, hq, rfl⟩
          have hget : mapGet st.tileMap (q.x, q.y) = some q.tile :=
            mapGet_eq_some_of_mem (by rw [hkeys]; exact hndtiles) hqmem
          have hin : q.tile ∈ getNeighborTiles c.x c.y st.tileMap gridSize :=
            getNeighborTiles_complete hadj hqb.1 hqb.2 hget
          rw [he] at hin
          exact hfresh hin
        -- invariants for the recursive call
        have hmapcorr₁ : st₁.tileMap = st₁.tiles.map (fun p => ((p.x, p.y), p.tile)) := by
          rw [hst₁]
          dsimp only
          rw [mapSet_append_of_not_mem (by rw [hkeys]; exact hccfresh), hmapcorr]
          simp
        have hnd₁ : (st₁.tiles.map (fun p => (p.x, p.y)) ++
            rest.map (fun c => (c.x, c.y))).Nodup := by
          rw [hst₁]
          dsimp only
          rw [List.map_append, List.append_assoc]
          simpa using hnd
        have hbounds₁ : ∀ p ∈ st₁.tiles, p.x < gridSize ∧ p.y < gridSize := by
          rw [hst₁]
          intro p hp'
          rcases List.mem_append.mp hp' with h1 | h1
          · exact hbounds p h1
          · simp only [List.mem_singleton] at h1
            subst h1
            exact hcb c (List.mem_cons_self c rest)
        have hpw₁ : st₁.tiles.Pairwise
            (fun p q => adjacentPos (p.x, p.y) (q.x, q.y) → p.tile ≠ q.tile) := by
          rw [hst₁]
          dsimp only
          rw [List.pairwise_append]
          refine ⟨hpw, List.pairwise_singleton _ _, ?_⟩
          intro a ha b hb
          simp only [List.mem_singleton] at hb
          subst hb
          intro hadj
          exact hcross a ha hadj
        exact runCellsFrom_adjacency dist gridSize tileMetadata rand h5 rest (i + 1)
          st₁ st' hrun hmapcorr₁ hnd₁ hbounds₁
          (fun c' hc' => hcb c' (List.mem_cons_of_mem c hc')) hpw₁

theorem gridCells_mem_bounds {γ : Type} {gridSize : ℕ} {labOf : ℕ → ℕ → γ}
    {c : Cell γ} (h : c ∈ gridCells gridSize labOf) :
    c.x < gridSize ∧ c.y < gridSize := by
  unfold gridCells at h
  simp only [List.mem_flatMap, List.mem_map, List.mem_range] at h
  obtain ⟨y, hy, x, hx, he⟩ := h
  rw [← he]
  exact ⟨hx, hy⟩

/-- C2: with neighbor diversity enabled and a pool of at least five distinct
tile ids, a completed run never places the same tile id at two horizontally
or vertically adjacent cells; moreover (for any pool) the constrained
selection falls back to the unconstrained `selectBestTile` exactly when the
neighbor exclusion leaves zero candidates (i.e. every tile id of the pool
occurs among the neighbor ids), and whenever at least one candidate
survives, the returned tile id differs from every neighbor id. -/
theorem mosaic_neighbor_diversity {γ : Type} (dist : γ → γ → ℚ) (gridSize : ℕ)
    (labOf : ℕ → ℕ → γ) (tileMetadata : List (Tile γ)) (rand : ℕ → ℕ)
    (h5 : 5 ≤ (tileMetadata.map (·.filename)).dedup.length) :
    (∃ st', generateMosaicGrid dist true gridSize labOf tileMetadata rand = some st' ∧
      ∀ p ∈ st'.tiles, ∀ q ∈ st'.tiles,
        adjacentPos (p.x, p.y) (q.x, q.y) → p.tile ≠ q.tile) ∧
    (∀ (cell : Cell γ) (usageCount : List (String × ℕ))
        (neighborTiles : List String) (r : ℕ),
      (neighborSurvivors tileMetadata neighborTiles = [] ↔
        ∀ t ∈ tileMetadata, t.filename ∈ neighborTiles) ∧
      (neighborSurvivors tileMetadata neighborTiles = [] →
        selectBestTileWithNeighborConstraint dist cell tileMetadata usageCount
          neighborTiles gridSize r =
        selectBestTile dist cell tileMetadata usageCount gridSize r) ∧
      (neighborSurvivors tileMetadata neighborTiles ≠ [] →
        ∃ t, selectBestTileWithNeighborConstraint dist cell tileMetadata usageCount
            neighborTiles gridSize r = some t ∧ t.filename ∉ neighborTiles)) := by
  have htiles : tileMetadata ≠ [] := by
    intro hnil
    rw [hnil] at h5
    simp at h5
  constructor
  · obtain ⟨st', hrun, hcoords, _, _, _⟩ :=
      runCellsFrom_total dist true gridSize tileMetadata rand htiles
        (gridCells gridSize labOf) 0 ⟨[], [], []⟩ (by simp) (by simp [sumValues])
    have hpw := runCellsFrom_adjacency dist gridSize tileMetadata rand h5
      (gridCells gridSize labOf) 0 ⟨[], [], []⟩ st' hrun rfl
      (by
        simp only [List.map_nil, List.nil_append]
        rw [gridCells_map_coords]
        exact gridCoords_nodup gridSize)
      (by intro p hp; exact absurd hp (List.not_mem_nil p))
      (fun c hc => gridCells_mem_bounds hc)
      List.Pairwise.nil
    refine ⟨st', hrun, ?_⟩
    intro p hp q hq hadj
    by_cases hpq : p = q
    · subst hpq
      exact absurd hadj (adjacentPos_irrefl _)
    · have hsymm : Symmetric (fun p q : Placement =>
          adjacentPos (p.x, p.y) (q.x, q.y) → p.tile ≠ q.tile) := by
        intro a b hab hadj' he
        exact hab (adjacentPos_symm hadj') he.symm
      exact hpw.forall hsymm hp hq hpq hadj
  · intro cell usageCount neighborTiles r
    refine ⟨neighborSurvivors_eq_nil_iff tileMetadata neighborTiles, ?_, ?_⟩
    · intro hnil
      exact (selectBestTileWithNeighborConstraint_spec dist cell tileMetadata
        usageCount neighborTiles gridSize r).1 hnil
    · intro hne
      obtain ⟨t, ht, _, hfresh⟩ := (selectBestTileWithNeighborConstraint_spec dist
        cell tileMetadata usageCount neighborTiles gridSize r).2 hne
      exact ⟨t, ht, hfresh⟩

/-- Closed witness for `mosaic_neighbor_diversity`: a concrete 2×2 run over
five distinct tiles. -/
theorem mosaic_neighbor_diversity_witness :
    5 ≤ (([⟨"a", ()⟩, ⟨"b", ()⟩, ⟨"c", ()⟩, ⟨"d", ()⟩, ⟨"e", ()⟩] :
        List (Tile Unit)).map (·.filename)).dedup.length ∧
    ((∃ st', generateMosaicGrid (fun _ _ => (0 : ℚ)) true 2 (fun _ _ => ())
        [⟨"a", ()⟩, ⟨"b", ()⟩, ⟨"c", ()⟩, ⟨"d", ()⟩, ⟨"e", ()⟩]
        (fun _ => 0) = some st' ∧
      ∀ p ∈ st'.tiles, ∀ q ∈ st'.tiles,
        adjacentPos (p.x, p.y) (q.x, q.y) → p.tile ≠ q.tile) ∧
    (∀ (cell : Cell Unit) (usageCount : List (String × ℕ))
        (neighborTiles : List String) (r : ℕ),
      (neighborSurvivors [⟨"a", ()⟩, ⟨"b", ()⟩, ⟨"c", ()⟩, ⟨"d", ()⟩, ⟨"e", ()⟩]
          neighborTiles = [] ↔
        ∀ t ∈ ([⟨"a", ()⟩, ⟨"b", ()⟩, ⟨"c", ()⟩, ⟨"d", ()⟩, ⟨"e", ()⟩] :
            List (Tile Unit)), t.filename ∈ neighborTiles) ∧
      (neighborSurvivors [⟨"a", ()⟩, ⟨"b", ()⟩, ⟨"c", ()⟩, ⟨"d", ()⟩, ⟨"e", ()⟩]
          neighborTiles = [] →
        selectBestTileWithNeighborConstraint (fun _ _ => (0 : ℚ)) cell
          [⟨"a", ()⟩, ⟨"b", ()⟩, ⟨"c", ()⟩, ⟨"d", ()⟩, ⟨"e", ()⟩] usageCount
          neighborTiles 2 r =
        selectBestTile (fun _ _ => (0 : ℚ)) cell
          [⟨"a", ()⟩, ⟨"b", ()⟩, ⟨"c", ()⟩, ⟨"d", ()⟩, ⟨"e", ()⟩] usageCount 2 r) ∧
      (neighborSurvivors [⟨"a", ()⟩, ⟨"b", ()⟩, ⟨"c", ()⟩, ⟨"d", ()⟩, ⟨"e", ()⟩]
          neighborTiles ≠ [] →
        ∃ t, selectBestTileWithNeighborConstraint (fun _ _ => (0 : ℚ)) cell
            [⟨"a", ()⟩, ⟨"b", ()⟩, ⟨"c", ()⟩, ⟨"d", ()⟩, ⟨"e", ()⟩] usageCount
            neighborTiles 2 r = some t ∧ t.filename ∉ neighborTiles))) :=
  ⟨by decide, mosaic_neighbor_diversity (fun _ _ => (0 : ℚ)) 2 (fun _ _ => ())
    [⟨"a", ()⟩, ⟨"b", ()⟩, ⟨"c", ()⟩, ⟨"d", ()⟩, ⟨"e", ()⟩] (fun _ => 0) (by decide)⟩

/-- C6: for `totalCells, tileCount ≥ 1`, the usage ceiling that both
selection procedures use to filter candidates equals
`ceil(totalCells / tileCount) + ceil(tileCount / 20)` — the `Math.max(1, ·)`
in the code is redundant there. -/
theorem maxUsageOf_eq_ceil_add_ceil (totalCells tileCount : ℕ)
    (h1 : 0 < totalCells) (h2 : 0 < tileCount) :
    (maxUsageOf totalCells tileCount : ℤ) =
      ⌈(totalCells : ℚ) / tileCount⌉ + ⌈(tileCount : ℚ) / 20⌉ := by
  unfold maxUsageOf
  have hone : 1 ≤ jsCeil totalCells tileCount := by
    unfold jsCeil
    rw [Nat.one_le_div_iff h2]
    omega
  rw [max_eq_right hone]
  push_cast
  rw [jsCeil_eq_ceil totalCells tileCount h2, jsCeil_eq_ceil tileCount 20 (by norm_num)]
  norm_num

/-- Closed witness for `maxUsageOf_eq_ceil_add_ceil` at
`totalCells = 2500, tileCount = 30` (a 50×50 grid with 30 tiles):
`maxUsage = ceil(2500/30) + ceil(30/20) = 84 + 2 = 86`. -/
theorem maxUsageOf_eq_ceil_add_ceil_witness :
    0 < 2500 ∧ 0 < 30 ∧ maxUsageOf 2500 30 = 86 ∧
    (maxUsageOf 2500 30 : ℤ) = ⌈(2500 : ℚ) / 30⌉ + ⌈(30 : ℚ) / 20⌉ :=
  ⟨by norm_num, by norm_num, by decide,
    maxUsageOf_eq_ceil_add_ceil 2500 30 (by norm_num) (by norm_num)⟩

/-! ### ProgressController: terminal events of a run
(`MosaicWorker.generateMosaic` lines 253-304, `checkPauseCancel` 1144-1152,
`cancelProcessing` 1164-1167, `sendComplete`/`sendError` 1203-1215).

The worker's message vocabulary is fixed by its `sendMessage` call sites:
`progress`, `preview`, `complete`, `error`, `paused`, `resumed` — there is
no `cancelled` message type anywhere in the worker or in
`main.js:handleWorkerMessage` (585-608).  `generateMosaic` wraps the stages
in `try/catch`: on success it emits one `complete`; on a throw it emits one
`error` unless `isCancelled` is set, in which case it emits nothing.
`cancelProcessing` sets `isCancelled` and nothing ever clears it during a
run, so the flag is monotone; `checkPauseCancel`, called once per cell and
batch, throws as soon as the flag is set. -/

inductive WorkerMsgType
  | progress
  | preview
  | complete
  | error
  | paused
  | resumed
deriving DecidableEq

/-- `MosaicWorker.checkPauseCancel` (1144-1152), cancellation part: throws
`'Processing was cancelled'` when the cancel flag is set.  (The pause loop
only delays; it emits no events and cannot end the run.) -/
def checkPauseCancel (isCancelled : Bool) : Except String Unit :=
  if isCancelled then Except.error "Processing was cancelled" else Except.ok ()

/-- The sequence of cooperative cancellation checkpoints of a run: `flag i`
is the worker's `isCancelled` field as observed at the `i`-th checkpoint
(set asynchronously by a `cancel` message).  Returns the first throw. -/
def runCheckpoints (flag : ℕ → Bool) : ℕ → ℕ → Except String Unit
  | _, 0 => Except.ok ()
  | i, n + 1 =>
      match checkPauseCancel (flag i) with
      | Except.error e => Except.error e
      | Except.ok _ => runCheckpoints flag (i + 1) n

/-- The terminal events `generateMosaic` emits (lines 293-299):
`sendComplete` on success; on a throw, `sendError` only if `isCancelled` is
not set at the catch. -/
def generateMosaicTerminalEvents (stagesOutcome : Except String Unit)
    (isCancelledAtCatch : Bool) : List WorkerMsgType :=
  match stagesOutcome with
  | Except.ok _ => [WorkerMsgType.complete]
  | Except.error _ =>
      if isCancelledAtCatch then [] else [WorkerMsgType.error]

theorem runCheckpoints_cancelled (flag : ℕ → Bool) :
    ∀ (n i : ℕ), (∃ k, k < n ∧ flag (i + k) = true) →
      runCheckpoints flag i n = Except.error "Processing was cancelled"
  | 0, i, ⟨k, hk, _⟩ => absurd hk (by omega)
  | n + 1, i, ⟨k, hk, hf⟩ => by
      simp only [runCheckpoints, checkPauseCancel]
      by_cases h0 : flag i = true
      · rw [h0]
        rfl
      · have h0' : flag i = false := by simpa using h0
        rw [h0']
        simp only [Bool.false_eq_true, if_false]
        apply runCheckpoints_cancelled flag n (i + 1)
        match k, hf with
        | 0, hf => exact absurd (by simpa using hf) h0
        | k' + 1, hf =>
            exact ⟨k', by omega, by rw [show i + 1 + k' = i + (k' + 1) by omega]; exact hf⟩

/-- C5 counterexample: cancelling before the first checkpoint makes the run
unwind with the cancel flag still set, and the worker then emits zero
terminal events — not the one (`cancelled`) event the claim requires; indeed
no `cancelled` message type exists in the worker at all. -/
theorem cancelled_run_emits_no_terminal_event :
    runCheckpoints (fun _ => true) 0 1 = Except.error "Processing was cancelled" ∧
    generateMosaicTerminalEvents (runCheckpoints (fun _ => true) 0 1) true = [] ∧
    (generateMosaicTerminalEvents (runCheckpoints (fun _ => true) 0 1) true).length ≠ 1 :=
  ⟨rfl, rfl, by decide⟩

/-- C5 amended: a run emits at most one terminal event; a successful run
emits exactly one `complete`; an uncancelled failure emits exactly one
`error`; but a run cancelled at some checkpoint unwinds with the (monotone)
cancel flag still set and emits no terminal event at all — in particular
never a `complete`/result event, and there is no `cancelled` event type. -/
theorem generateMosaic_terminal_events (flag : ℕ → Bool) (n : ℕ)
    (hmono : ∀ i j, i ≤ j → flag i = true → flag j = true) :
    (∀ (o : Except String Unit) (c : Bool),
      (generateMosaicTerminalEvents o c).length ≤ 1) ∧
    (∀ (e : String) (c : Bool),
      WorkerMsgType.complete ∉ generateMosaicTerminalEvents (Except.error e) c) ∧
    (∀ c : Bool, generateMosaicTerminalEvents (Except.ok ()) c = [WorkerMsgType.complete]) ∧
    (∀ e : String, generateMosaicTerminalEvents (Except.error e) false = [WorkerMsgType.error]) ∧
    ((∃ k, k < n ∧ flag k = true) →
      runCheckpoints flag 0 n = Except.error "Processing was cancelled" ∧
      generateMosaicTerminalEvents (runCheckpoints flag 0 n) (flag n) = []) := by
  refine ⟨?_, ?_, fun _ => rfl, fun _ => rfl, ?_⟩
  · intro o c
    match o with
    | Except.ok _ => simp [generateMosaicTerminalEvents]
    | Except.error e =>
        simp only [generateMosaicTerminalEvents]
        split <;> simp
  · intro e c
    simp only [generateMosaicTerminalEvents]
    split <;> simp
  · intro ⟨k, hk, hf⟩
    have hrun := runCheckpoints_cancelled flag n 0 ⟨k, hk, by simpa using hf⟩
    refine ⟨hrun, ?_⟩
    rw [hrun]
    have hflag : flag n = true := hmono k n (by omega) hf
    simp [generateMosaicTerminalEvents, hflag]

/-- Closed witness for `generateMosaic_terminal_events` at a concrete
always-cancelled schedule with two checkpoints. -/
theorem generateMosaic_terminal_events_witness :
    runCheckpoints (fun _ => true) 0 2 = Except.error "Processing was cancelled" ∧
    generateMosaicTerminalEvents (runCheckpoints (fun _ => true) 0 2)
      ((fun _ : ℕ => true) 2) = [] :=
  (generateMosaic_terminal_events (fun _ => true) 2
    (fun _ _ _ h => h)).2.2.2.2 ⟨0, by decide, rfl⟩

/-! ### Empty tile pool (C9). -/

theorem selectBestTileWithNeighborConstraint_nil {γ : Type} (dist : γ → γ → ℚ)
    (cell : Cell γ) (usageCount : List (String × ℕ)) (neighborTiles : List String)
    (gridSize rand : ℕ) :
    selectBestTileWithNeighborConstraint dist cell ([] : List (Tile γ)) usageCount
      neighborTiles gridSize rand = none := by
  rw [(selectBestTileWithNeighborConstraint_spec dist cell [] usageCount
    neighborTiles gridSize rand).1 rfl]
  exact selectBestTile_nil dist cell usageCount gridSize rand

theorem placeCell_nil {γ : Type} (dist : γ → γ → ℚ) (nd : Bool) (gridSize : ℕ)
    (st : GridState) (cell : Cell γ) (rand : ℕ) :
    placeCell dist nd gridSize ([] : List (Tile γ)) st cell rand = none := by
  simp only [placeCell]
  cases nd
  · rw [if_neg (by simp), selectBestTile_nil]
  · rw [if_pos rfl, selectBestTileWithNeighborConstraint_nil]

theorem runCellsFrom_mem {γ : Type} (dist : γ → γ → ℚ) (nd : Bool) (gridSize : ℕ)
    (tileMetadata : List (Tile γ)) (rand : ℕ → ℕ) :
    ∀ (cells : List (Cell γ)) (i : ℕ) (st st' : GridState),
      runCellsFrom dist nd gridSize tileMetadata rand cells i st = some st' →
      ∀ p ∈ st'.tiles, p ∈ st.tiles ∨ p.tile ∈ tileMetadata.map (·.filename)
  | [], i, st, st' => by
      intro hrun p hp
      simp only [runCellsFrom, Option.some.injEq] at hrun
      rw [← hrun] at hp
      exact Or.inl hp
  | c :: rest, i, st, st' => by
      intro hrun p hp
      simp only [runCellsFrom] at hrun
      match hpc : placeCell dist nd gridSize tileMetadata st c (rand i) with
      | none =>
          rw [hpc] at hrun
          exact absurd hrun (by simp)
      | some st₁ =>
          rw [hpc] at hrun
          obtain ⟨t, htmem, hst₁⟩ := placeCell_eq_some hpc
          rcases runCellsFrom_mem dist nd gridSize tileMetadata rand rest (i + 1)
            st₁ st' hrun p hp with h1 | h1
          · rw [hst₁] at h1
            rcases List.mem_append.mp h1 with h2 | h2
            · exact Or.inl h2
            · simp only [List.mem_singleton] at h2
              subst h2
              exact Or.inr (List.mem_map.mpr ⟨t, htmem, rfl⟩)
          · exact Or.inr h1

/-- C9: with an empty (zero-tile) pool, tile selection for any cell throws
(`none`, no placeholder tile), so the first cell already aborts the grid run
(`generateMosaicGrid = none`); the run then surfaces exactly one `error`
event and no `complete`/result event.  Conversely, any placement of a
successful run carries a tile id drawn from the supplied tile list. -/
theorem empty_tile_pool_error_path {γ : Type} (dist : γ → γ → ℚ) (nd : Bool)
    (gridSize : ℕ) (labOf : ℕ → ℕ → γ) (rand : ℕ → ℕ) (hg : 0 < gridSize) :
    (∀ (cell : Cell γ) (usageCount : List (String × ℕ)) (r : ℕ),
      selectBestTile dist cell ([] : List (Tile γ)) usageCount gridSize r = none) ∧
    generateMosaicGrid dist nd gridSize labOf ([] : List (Tile γ)) rand = none ∧
    (∀ e : String,
      generateMosaicTerminalEvents (Except.error e) false = [WorkerMsgType.error] ∧
      ∀ c : Bool,
        WorkerMsgType.complete ∉ generateMosaicTerminalEvents (Except.error e) c) ∧
    (∀ (tileMetadata : List (Tile γ)) (st' : GridState),
      generateMosaicGrid dist nd gridSize labOf tileMetadata rand = some st' →
      ∀ p ∈ st'.tiles, p.tile ∈ tileMetadata.map (·.filename)) := by
  refine ⟨fun cell usageCount r => selectBestTile_nil dist cell usageCount gridSize r,
    ?_, ?_, ?_⟩
  · have hne : gridCells gridSize labOf ≠ [] := by
      intro hnil
      have := congrArg List.length hnil
      have hlen : (gridCells gridSize labOf).length = gridSize * gridSize := by
        have h1 := congrArg List.length (gridCells_map_coords gridSize labOf)
        simp only [List.length_map, gridCoords_length] at h1
        exact h1
      rw [hlen] at this
      simp only [List.length_nil] at this
      nlinarith
    match hc : gridCells gridSize labOf with
    | [] => exact absurd hc hne
    | c :: rest =>
        simp only [generateMosaicGrid, hc, runCellsFrom, placeCell_nil]
  · intro e
    refine ⟨rfl, ?_⟩
    intro c
    simp only [generateMosaicTerminalEvents]
    split <;> simp
  · intro tileMetadata st' hrun p hp
    rcases runCellsFrom_mem dist nd gridSize tileMetadata rand
      (gridCells gridSize labOf) 0 ⟨[], [], []⟩ st' hrun p hp with h1 | h1
    · exact absurd h1 (List.not_mem_nil p)
    · exact h1

/-- Closed witness for `empty_tile_pool_error_path` at a concrete 1×1 grid. -/
theorem empty_tile_pool_error_path_witness :
    selectBestTile (fun _ _ => (0 : ℚ)) (⟨0, 0, ()⟩ : Cell Unit) [] [] 1 0 = none ∧
    generateMosaicGrid (fun _ _ => (0 : ℚ)) false 1 (fun _ _ => ())
      ([] : List (Tile Unit)) (fun _ => 0) = none :=
  ⟨((empty_tile_pool_error_path (fun _ _ => (0 : ℚ)) false 1 (fun _ _ => ())
      (fun _ => 0) (by decide)).1 ⟨0, 0, ()⟩ [] 0),
   (empty_tile_pool_error_path (fun _ _ => (0 : ℚ)) false 1 (fun _ _ => ())
      (fun _ => 0) (by decide)).2.1⟩

/-! ### Compositor: high-resolution reconstruction size logic
(`generateHighResolutionMosaic`, `main.js:810-875`).

The function destructures `const { gridInfo, tileMap } = resultData` and
never writes to `gridInfo`; the tile-size adjustment is only logged
(`console.warn`) and shown as a notification (main.js:840-842).  The
returned value is the canvas alone (main.js:1112) — so whatever
`resultData.gridInfo` held before the call (the mosaic-generation
`{gridSize, tileSize}` from `finalizeResult`, image-processor.js:903-906)
is still what any later reader of `gridInfo` sees.  `none` models the
`return null` of the size-limit error branch (main.js:848-856). -/

structure GridInfo where
  gridSize : ℕ
  tileSize : ℕ
deriving DecidableEq

/-- The observable outcome of a successful high-resolution composition:
the raster dimensions (tile size recoverable as `width / gridSize`) and the
`gridInfo` as later readers see it (unchanged input). -/
structure HighResOutcome where
  width : ℕ
  height : ℕ
  usedTileSize : ℕ
  reportedGridInfo : GridInfo
deriving DecidableEq

/-- `generateHighResolutionMosaic(resultData)` (main.js:810-875), size
logic: `highResTileSize = 256`, auto-reduced to
`Math.floor(32767 / gridSize)` when `gridSize > Math.floor(32767 / 256)`;
then fails (`null`) if `gridSize * highResTileSize` still exceeds 32767. -/
def generateHighResolutionMosaic (gridInfo : GridInfo) : Option HighResOutcome :=
  let maxCanvasSize := 32767
  let maxGridSizeFor256 := maxCanvasSize / 256
  let highResTileSize :=
    if gridInfo.gridSize > maxGridSizeFor256 then maxCanvasSize / gridInfo.gridSize
    else 256
  let fullWidth := gridInfo.gridSize * highResTileSize
  let fullHeight := gridInfo.gridSize * highResTileSize
  if fullWidth > maxCanvasSize ∨ fullHeight > maxCanvasSize then none
  else some ⟨fullWidth, fullHeight, highResTileSize, gridInfo⟩

/-- C8 counterexample: at `gridSize = 150` (mosaic tileSize 32) the tile
size is indeed auto-reduced to `⌊32767/150⌋ = 218` and the raster stays
within the ceiling — but `gridInfo` still reports the original
`tileSize = 32`, not the adjusted 218: the adjustment is never written into
`gridInfo`. -/
theorem highres_adjusted_tileSize_not_in_gridInfo :
    generateHighResolutionMosaic ⟨150, 32⟩ =
      some ⟨32700, 32700, 218, ⟨150, 32⟩⟩ ∧
    (218 : ℕ) = 32767 / 150 ∧
    (⟨32700, 32700, 218, ⟨150, 32⟩⟩ : HighResOutcome).reportedGridInfo.tileSize ≠ 218 :=
  ⟨by decide, by decide, by decide⟩

/-- C8 amended: when `gridSize · 256` would exceed the 32767-pixel raster
ceiling (equivalently, the code's trigger `gridSize > ⌊32767/256⌋ = 127`),
the tile size is reduced to `⌊32767/gridSize⌋` and the resulting raster
stays within the ceiling; if the computed raster size still exceeded the
ceiling the function would fail with the size-limit error and return no
raster; the adjusted tile size is only logged — `gridInfo` is left
unchanged, still carrying the original tileSize.  `gridSize = 150` triggers
the reduction (to 218). -/
theorem generateHighResolutionMosaic_spec (g : GridInfo) :
    (g.gridSize * 256 > 32767 ↔ g.gridSize > 32767 / 256) ∧
    (∀ o : HighResOutcome, generateHighResolutionMosaic g = some o →
      o.width = g.gridSize * o.usedTileSize ∧
      o.height = o.width ∧
      o.width ≤ 32767 ∧
      (g.gridSize * 256 > 32767 → o.usedTileSize = 32767 / g.gridSize) ∧
      (¬ g.gridSize * 256 > 32767 → o.usedTileSize = 256) ∧
      o.reportedGridInfo = g) ∧
    (g.gridSize * (if g.gridSize > 32767 / 256 then 32767 / g.gridSize else 256) >
        32767 →
      generateHighResolutionMosaic g = none) := by
  refine ⟨by omega, ?_, ?_⟩
  · intro o ho
    simp only [generateHighResolutionMosaic] at ho
    by_cases htrig : g.gridSize > 32767 / 256
    · rw [if_pos htrig] at ho
      split at ho
      · exact absurd ho (by simp)
      · next hle =>
          push_neg at hle
          rw [← Option.some.inj ho]
          refine ⟨rfl, rfl, hle.1, fun _ => rfl, ?_, rfl⟩
          intro hno
          exact absurd htrig (by omega)
    · rw [if_neg htrig] at ho
      split at ho
      · exact absurd ho (by simp)
      · next hle =>
          push_neg at hle
          rw [← Option.some.inj ho]
          refine ⟨rfl, rfl, hle.1, ?_, fun _ => rfl, rfl⟩
          intro hyes
          exact absurd htrig (by omega)
  · intro hbig
    simp only [generateHighResolutionMosaic]
    rw [if_pos (Or.inl hbig)]

/-- Closed witness for `generateHighResolutionMosaic_spec` at
`gridSize = 150`: the reduction triggers (150·256 = 38400 > 32767), the
raster is 32700 = 150·218 ≤ 32767, and the reported gridInfo is unchanged. -/
theorem generateHighResolutionMosaic_spec_witness :
    (150 * 256 > 32767 ↔ 150 > 32767 / 256) ∧
    ((⟨32700, 32700, 218, ⟨150, 32⟩⟩ : HighResOutcome).width =
        150 * (⟨32700, 32700, 218, ⟨150, 32⟩⟩ : HighResOutcome).usedTileSize ∧
      (⟨32700, 32700, 218, ⟨150, 32⟩⟩ : HighResOutcome).usedTileSize = 32767 / 150 ∧
      (⟨32700, 32700, 218, ⟨150, 32⟩⟩ : HighResOutcome).reportedGridInfo = ⟨150, 32⟩) := by
  have h := (generateHighResolutionMosaic_spec ⟨150, 32⟩).2.1
    ⟨32700, 32700, 218, ⟨150, 32⟩⟩ (by decide)
  exact ⟨(generateHighResolutionMosaic_spec ⟨150, 32⟩).1,
    h.1, h.2.2.2.1 (by decide), h.2.2.2.2.2⟩

/-! ### TileCache: the LRU cache
(`LRUCache`, memory-utils, image-processor.js:1239-1328).

The JS `Map` is insertion-ordered, so the least-recently-used entry is the
first one; `get` re-inserts on hit.  `currentMemory` is the tracked byte
counter the class maintains alongside the map; `estimateMemorySize`
dispatches on the stored value's type. -/

/-- The value types `estimateMemorySize` (1304-1318) distinguishes. -/
inductive CacheValue
  | offscreenCanvas (width height : ℕ)
  | imageData (dataLength : ℕ)
  | uint16Array (length : ℕ)
  | uint8Array (length : ℕ)
  | other
deriving DecidableEq

/-- `LRUCache.estimateMemorySize(value)`. -/
def estimateMemorySize : CacheValue → ℕ
  | .offscreenCanvas w h => w * h * 4
  | .imageData n => n
  | .uint16Array n => n * 2
  | .uint8Array n => n
  | .other => 1024

structure LRUCache where
  maxSize : ℕ
  maxMemory : ℕ
  cache : List (String × CacheValue)
  currentMemory : ℕ
deriving DecidableEq

/-- `LRUCache.delete(key)` (1282-1290): subtract the found value's estimate
and remove the entry. -/
def LRUCache.deleteKey (c : LRUCache) (key : String) : LRUCache :=
  match mapGet c.cache key with
  | some v =>
      { c with cache := c.cache.eraseP (fun p => decide (p.1 = key)),
               currentMemory := c.currentMemory - estimateMemorySize v }
  | none => c

/-- The `while` loop of `LRUCache.set` (1262-1265) together with `evictLRU`
(1297-1302): while the incoming entry would break the byte or count budget,
take the first (least-recently-used) key.  `evictLRU` guards the deletion
with `if (firstKey)` — a JS *truthiness* test, false not only for
`undefined` (empty cache) but also for the empty-string key `""` — and in
either falsy case it deletes nothing, so the loop condition can never
change and the JS `while` spins forever; both divergences are modelled as
`none`. -/
def evictLoop (c : LRUCache) (memorySize : ℕ) : Option LRUCache :=
  if c.currentMemory + memorySize > c.maxMemory ∨ c.cache.length ≥ c.maxSize then
    match h : c.cache with
    | [] => none
    | (k, v) :: rest =>
        if k = "" then none
        else evictLoop (c.deleteKey k) memorySize
  else some c
termination_by c.cache.length
decreasing_by
  simp only [LRUCache.deleteKey]
  rw [h]
  rw [mapGet_cons]
  simp only [if_pos rfl]
  simp [List.eraseP_cons, h]

/-- `LRUCache.set(key, value)` (1258-1276): evict until the budgets have room for
the new entry, refund and drop an existing entry for the key, then append
the entry and charge its estimate. -/
def LRUCache.set (c : LRUCache) (key : String) (value : CacheValue) :
    Option LRUCache :=
  let memorySize := estimateMemorySize value
  match evictLoop c memorySize with
  | none => none
  | some c1 =>
      let c2 :=
        if c1.cache.any (fun p => decide (p.1 = key)) then
          { c1 with
            cache := c1.cache.eraseP (fun p => decide (p.1 = key)),
            currentMemory := c1.currentMemory -
              estimateMemorySize ((mapGet c1.cache key).getD CacheValue.other) }
        else c1
      some { c2 with
        cache := c2.cache ++ [(key, value)],
        currentMemory := c2.currentMemory + memorySize }

/-- Bookkeeping consistency: the tracked byte counter equals the sum of the
stored entries' estimates.  It holds for the empty cache and is preserved by
every operation, so it holds in every reachable state. -/
def LRUCache.consistent (c : LRUCache) : Prop :=
  c.currentMemory = (c.cache.map (fun p => estimateMemorySize p.2)).sum

theorem lruCache_initial_consistent (ms mm : ℕ) :
    (LRUCache.mk ms mm [] 0).consistent := rfl

theorem erase_first_spec (key : String) :
    ∀ l : List (String × CacheValue),
      l.any (fun p => decide (p.1 = key)) = true →
      ∃ v, mapGet l key = some v ∧
        ((l.eraseP (fun p => decide (p.1 = key))).map
            (fun p => estimateMemorySize p.2)).sum + estimateMemorySize v =
          (l.map (fun p => estimateMemorySize p.2)).sum ∧
        (l.eraseP (fun p => decide (p.1 = key))).length + 1 = l.length
  | [], h => by simp at h
  | p :: rest, h => by
      by_cases hp : p.1 = key
      · refine ⟨p.2, ?_, ?_, ?_⟩
        · rw [mapGet_cons, if_pos hp]
        · rw [List.eraseP_cons_of_pos (by simpa using hp)]
          simp only [List.map_cons, List.sum_cons]
          omega
        · rw [List.eraseP_cons_of_pos (by simpa using hp)]
          simp
      · have hrest : rest.any (fun p => decide (p.1 = key)) = true := by
          simp only [List.any_cons] at h
          rcases Bool.or_eq_true_iff.mp h with h1 | h1
          · exact absurd (by simpa using h1) hp
          · exact h1
        obtain ⟨v, hv, hsum, hlen⟩ := erase_first_spec key rest hrest
        refine ⟨v, ?_, ?_, ?_⟩
        · rw [mapGet_cons, if_neg hp]
          exact hv
        · rw [List.eraseP_cons_of_neg (by simpa using hp)]
          simp only [List.map_cons, List.sum_cons]
          omega
        · rw [List.eraseP_cons_of_neg (by simpa using hp)]
          simp only [List.length_cons]
          omega

theorem evictLoop_spec (ms : ℕ) :
    ∀ (n : ℕ) (c : LRUCache), c.cache.length ≤ n → c.consistent →
      (∀ p ∈ c.cache, p.1 ≠ "") →
      ms ≤ c.maxMemory → 0 < c.maxSize →
      ∃ c', evictLoop c ms = some c' ∧ c'.consistent ∧
        c'.maxSize = c.maxSize ∧ c'.maxMemory = c.maxMemory ∧
        c'.currentMemory + ms ≤ c.maxMemory ∧ c'.cache.length < c.maxSize
  | n, c => by
      intro hlen hcons hk hms hsz
      rw [evictLoop]
      by_cases hcond : c.currentMemory + ms > c.maxMemory ∨ c.cache.length ≥ c.maxSize
      · rw [if_pos hcond]
        match hc : c.cache, hlen with
        | [], _ =>
            exfalso
            have hmem : c.currentMemory = 0 := by
              have h0 := hcons
              unfold LRUCache.consistent at h0
              rw [hc] at h0
              simpa using h0
            rw [hmem, hc] at hcond
            simp only [List.length_nil] at hcond
            omega
        | (k, v) :: rest, hlen =>
            have hkne : k ≠ "" := by
              have := hk (k, v) (by rw [hc]; exact List.mem_cons_self _ _)
              simpa using this
            dsimp only
            rw [if_neg hkne]
            have hdcache : (c.deleteKey k).cache = rest := by
              simp [LRUCache.deleteKey, hc, mapGet_cons, List.eraseP_cons_of_pos]
            have hdmem : (c.deleteKey k).currentMemory =
                c.currentMemory - estimateMemorySize v := by
              simp [LRUCache.deleteKey, hc, mapGet_cons]
            have hdms : (c.deleteKey k).maxSize = c.maxSize := by
              simp [LRUCache.deleteKey, hc, mapGet_cons]
            have hdmm : (c.deleteKey k).maxMemory = c.maxMemory := by
              simp [LRUCache.deleteKey, hc, mapGet_cons]
            have hconsd : (c.deleteKey k).consistent := by
              unfold LRUCache.consistent
              rw [hdcache, hdmem]
              have h0 := hcons
              unfold LRUCache.consistent at h0
              rw [hc] at h0
              simp only [List.map_cons, List.sum_cons] at h0
              omega
            match n, hlen with
            | nmax + 1, hlen =>
              obtain ⟨c', hc', hcons', hms', hmm', hbound', hlen'⟩ :=
                evictLoop_spec ms nmax (c.deleteKey k)
                  (by rw [hdcache]; simp only [List.length_cons] at hlen; omega)
                  hconsd
                  (by
                    rw [hdcache]
                    intro p hp
                    exact hk p (by rw [hc]; exact List.mem_cons_of_mem _ hp))
                  (by rw [hdmm]; exact hms) (by rw [hdms]; exact hsz)
              refine ⟨c', hc', hcons', ?_, ?_, ?_, ?_⟩
              · rw [hms', hdms]
              · rw [hmm', hdmm]
              · rw [hdmm] at hbound'
                exact hbound'
              · rw [hdms] at hlen'
                exact hlen'
      · rw [if_neg hcond]
        push_neg at hcond
        exact ⟨c, rfl, hcons, rfl, rfl, hcond.1, hcond.2⟩

/-- C10 counterexample: the truthiness guard `if (firstKey)` in `evictLRU`
also rejects the empty-string key, so on a nonempty, consistent cache whose
least-recently-used key is `""` — reachable via `set("", v)` — a `set`
whose value estimate fits into the byte budget still spins forever
(modelled `none`): the eviction loop does not terminate, contrary to the
claim. -/
theorem lruCache_set_spins_on_empty_string_key :
    (LRUCache.mk 1 100 [("", CacheValue.uint8Array 60)] 60).consistent ∧
    estimateMemorySize (CacheValue.uint8Array 50) ≤
      (LRUCache.mk 1 100 [("", CacheValue.uint8Array 60)] 60).maxMemory ∧
    0 < (LRUCache.mk 1 100 [("", CacheValue.uint8Array 60)] 60).maxSize ∧
    (LRUCache.mk 1 100 [("", CacheValue.uint8Array 60)] 60).set "k"
      (CacheValue.uint8Array 50) = none := by
  refine ⟨rfl, by norm_num [estimateMemorySize], by norm_num, ?_⟩
  have hev : evictLoop (LRUCache.mk 1 100 [("", CacheValue.uint8Array 60)] 60)
      (estimateMemorySize (CacheValue.uint8Array 50)) = none := by
    rw [evictLoop]
    norm_num [estimateMemorySize]
  simp only [LRUCache.set, hev]

/-- C10 amended: for any consistent cache with a positive entry budget none
of whose stored keys is the empty string, a `set` whose value estimate fits
into the byte budget terminates (the eviction loop returns), and afterwards
the cache holds at most `maxSize` entries and its tracked byte total is at
most `maxMemory`; consistency is preserved.  Conversely an eviction removes
nothing — and the loop, if still unsatisfied, spins forever (`none`) — once
the cache is empty, and likewise when the least-recently-used key is the
falsy `""`. -/
theorem lruCache_set_bounds (c : LRUCache) (key : String) (value : CacheValue)
    (hcons : c.consistent) (hkeys : ∀ p ∈ c.cache, p.1 ≠ "")
    (hms : estimateMemorySize value ≤ c.maxMemory)
    (hsz : 0 < c.maxSize) :
    (∃ c', c.set key value = some c' ∧ c'.consistent ∧
      c'.maxSize = c.maxSize ∧ c'.maxMemory = c.maxMemory ∧
      c'.cache.length ≤ c.maxSize ∧ c'.currentMemory ≤ c.maxMemory) ∧
    (∀ c0 : LRUCache, c0.cache = [] →
      (c0.currentMemory + estimateMemorySize value > c0.maxMemory ∨ 0 ≥ c0.maxSize) →
      evictLoop c0 (estimateMemorySize value) = none) ∧
    (∀ (c0 : LRUCache) (v0 : CacheValue) (rest0 : List (String × CacheValue)),
      c0.cache = ("", v0) :: rest0 →
      (c0.currentMemory + estimateMemorySize value > c0.maxMemory ∨
        c0.cache.length ≥ c0.maxSize) →
      evictLoop c0 (estimateMemorySize value) = none) := by
  refine ⟨?_, ?_, ?_⟩
  · obtain ⟨c1, hc1, hcons1, hms1, hmm1, hbound1, hlen1⟩ :=
      evictLoop_spec (estimateMemorySize value) c.cache.length c (le_refl _)
        hcons hkeys hms hsz
    simp only [LRUCache.set, hc1]
    by_cases hkey : c1.cache.any (fun p => decide (p.1 = key)) = true
    · obtain ⟨v, hv, hsum, hlen⟩ := erase_first_spec key c1.cache hkey
      rw [if_pos hkey]
      refine ⟨_, rfl, ?_, by simpa using hms1, by simpa using hmm1, ?_, ?_⟩
      · unfold LRUCache.consistent at hcons1 ⊢
        simp only [List.map_append, List.sum_append]
        rw [hv]
        simp only [Option.getD_some]
        rw [hcons1]
        simp only [List.map_cons, List.sum_cons, List.map_nil, List.sum_nil]
        omega
      · simp only [List.length_append, List.length_cons, List.length_nil]
        omega
      · simp only
        rw [hv]
        simp only [Option.getD_some]
        omega
    · rw [if_neg hkey]
      refine ⟨_, rfl, ?_, by simpa using hms1, by simpa using hmm1, ?_, ?_⟩
      · unfold LRUCache.consistent at hcons1 ⊢
        simp only [List.map_append, List.sum_append]
        rw [hcons1]
        simp
      · simp only [List.length_append, List.length_cons, List.length_nil]
        omega
      · simp only
        omega
  · intro c0 hc0 hcond
    rw [evictLoop]
    rw [if_pos (by rw [hc0]; simpa using hcond)]
    rw [hc0]
  · intro c0 v0 rest0 hc0 hcond
    rw [evictLoop]
    rw [if_pos hcond]
    rw [hc0]
    simp

/-- Closed witness for `lruCache_set_bounds` at a concrete small cache with
a non-empty key. -/
theorem lruCache_set_bounds_witness :
    (LRUCache.mk 2 100 [] 0).consistent ∧
    (∀ p ∈ (LRUCache.mk 2 100 [] 0).cache, p.1 ≠ "") ∧
    estimateMemorySize (CacheValue.uint8Array 50) ≤ 100 ∧
    (∃ c', (LRUCache.mk 2 100 [] 0).set "k" (CacheValue.uint8Array 50) = some c' ∧
      c'.consistent ∧ c'.maxSize = 2 ∧ c'.maxMemory = 100 ∧
      c'.cache.length ≤ 2 ∧ c'.currentMemory ≤ 100) :=
  ⟨rfl, by decide, by decide,
    (lruCache_set_bounds (LRUCache.mk 2 100 [] 0) "k" (CacheValue.uint8Array 50)
      rfl (by decide) (by decide) (by decide)).1⟩
